import Mathlib

/-!
Verification of the core logic of the Action Jackson Blender add-on
(src/action_jackson_1_8_4.py).  The Python functions are shallowly embedded
as executable Lean definitions: strings are Lean `String`s (reasoned about
via their `List Char` data), Python dicts are association lists with
Python-dict insertion semantics, Blender collections are lists, and the
stateful operator bodies become explicit state-passing functions.
-/

namespace AJ

/-- ASCII whitespace characters as recognised by Python `str.strip`
(tab, LF, VT, FF, CR, FS, GS, RS, US, space).  We model the ASCII fragment
of Python's whitespace notion exactly; theorems that depend on it restrict
their strings to ASCII. -/
def isPySpace (c : Char) : Bool :=
  c.val = 9 || c.val = 10 || c.val = 11 || c.val = 12 || c.val = 13 ||
  c.val = 28 || c.val = 29 || c.val = 30 || c.val = 31 || c.val = 32

/-- ASCII line boundaries of Python `str.splitlines` (LF, VT, FF, CR, FS,
GS, RS); the two-character sequence CR LF is treated as a single boundary
by `splitlinesGo` below, as in Python. -/
def isLineBreak (c : Char) : Bool :=
  c.val = 10 || c.val = 11 || c.val = 12 || c.val = 13 ||
  c.val = 28 || c.val = 29 || c.val = 30

/-- Python `str.strip()` on the ASCII fragment: drop whitespace from both
ends. -/
def pyStrip (s : List Char) : List Char :=
  ((s.dropWhile isPySpace).reverse.dropWhile isPySpace).reverse

/-- Worker for Python `str.splitlines`: `acc` holds the current (reversed)
line; `sawCR` records that the previous character was a CR whose line has
already been emitted, so that a directly following LF is swallowed (the
CR LF pair is one boundary).  A trailing line break produces no extra
empty line, as in Python. -/
def splitlinesGo (sawCR : Bool) (acc : List Char) : List Char → List (List Char)
  | [] => if acc = [] then [] else [acc.reverse]
  | c :: rest =>
    if sawCR && c = '\n' then splitlinesGo false acc rest
    else if c = '\r' then acc.reverse :: splitlinesGo true [] rest
    else if isLineBreak c then acc.reverse :: splitlinesGo false [] rest
    else splitlinesGo false (c :: acc) rest

/-- Python `str.splitlines` (ASCII fragment). -/
def pySplitlines (s : List Char) : List (List Char) := splitlinesGo false [] s

/-- Python dict assignment `m[k] = v` on an association list whose keys are
kept unique: update the value in place if the key is present (keeping its
position, as Python dicts do), otherwise append the new pair. -/
def dictInsert {β : Type} (m : List (String × β)) (k : String) (v : β) :
    List (String × β) :=
  if m.any (fun p => p.1 == k) then m.map (fun p => if p.1 = k then (k, v) else p)
  else m ++ [(k, v)]

/-- Python dict lookup `m.get(k)`. -/
def dictGet {β : Type} (m : List (String × β)) (k : String) : Option β :=
  (m.find? (fun p => p.1 == k)).map (·.2)

/-- Membership test `k in m` for the dict model. -/
def dictMem {β : Type} (m : List (String × β)) (k : String) : Bool :=
  m.any (fun p => p.1 == k)

/-- The loop body of `parse_mapping_txt` for one raw line: strip it; skip
blank lines and `#` comments; on lines containing `=`, split at the first
`=`, strip both halves, and store the pair when the key is non-empty. -/
def parseStep (m : List (String × String)) (raw : List Char) :
    List (String × String) :=
  let line := pyStrip raw
  if line = [] then m
  else if line.head? = some '#' then m
  else if '=' ∈ line then
    let old := pyStrip (line.takeWhile (fun c => c != '='))
    let nw := pyStrip ((line.dropWhile (fun c => c != '=')).drop 1)
    if old = [] then m else dictInsert m (String.mk old) (String.mk nw)
  else m

/-- `parse_mapping_txt` (source lines 50-62). -/
def parse_mapping_txt (text : String) : List (String × String) :=
  (pySplitlines text.data).foldl parseStep []

/-- Python `"\n".join(lines)`. -/
def joinLines : List String → String
  | [] => ""
  | [l] => l
  | l :: ls => l ++ "\n" ++ joinLines ls

/-- `mapping_to_txt` (source lines 64-68): two comment header lines, then
one `k=v` line per mapping entry, joined with `\n`. -/
def mapping_to_txt (m : List (String × String)) : String :=
  joinLines (["# bone_old=bone_new", "# lines starting with # are comments"] ++
    m.map (fun p => p.1 ++ "=" ++ p.2))

/-- A well-behaved mapping entry for the (amended) round-trip property:
key and value are non-empty ASCII, the key contains no `=` and neither
side contains a line-break character, neither side starts or ends with
whitespace, and the key does not start with `#`. -/
def goodPair (p : String × String) : Prop :=
  p.1.data ≠ [] ∧ p.2.data ≠ [] ∧
  (∀ c ∈ p.1.data, c.val < 128 ∧ c ≠ '=' ∧ isLineBreak c = false) ∧
  (∀ c ∈ p.2.data, c.val < 128 ∧ isLineBreak c = false) ∧
  p.1.data.head?.all (fun c => !isPySpace c && !(c == '#')) = true ∧
  p.1.data.getLast?.all (fun c => !isPySpace c) = true ∧
  p.2.data.head?.all (fun c => !isPySpace c) = true ∧
  p.2.data.getLast?.all (fun c => !isPySpace c) = true

instance goodPairDecidable (p : String × String) : Decidable (goodPair p) := by
  unfold goodPair; infer_instance

/-- Character-level counterpart of `joinLines`, used only in proofs. -/
def joinL : List (List Char) → List Char
  | [] => []
  | [d] => d
  | d :: ds => d ++ '\n' :: joinL ds

/-! ## RenameEngine: `rename_bones_edit_mode_preserve_flags` (lines 183-210)

An armature's bone collection is a list of `EBone` (name plus `use_deform`
flag); Blender's `edit_bones[name]` lookup addresses the first bone with
that name (names are unique in a real armature), and assigning `.name`
renames that bone in place.  The Python function snapshots all deform
flags keyed by old name, renames every affected bone to
`new + "_TMP_RENAME__"`, then renames each temp-suffixed bone to its
final name, and finally restores deform flags onto the bones now holding
the new names. -/

structure EBone where
  name : String
  use_deform : Bool
deriving DecidableEq

def ebKeys (eb : List EBone) : List String := eb.map (fun b => b.name)

/-- `eb[old].name = new`: rename the first bone called `old` (no-op when
absent; the source only reaches this with `old` present). -/
def renameFirst : List EBone → String → String → List EBone
  | [], _, _ => []
  | b :: bs, o, n =>
    if b.name = o then { b with name := n } :: bs else b :: renameFirst bs o n

/-- `arm.data.bones[n].use_deform = f` on the first bone called `n`. -/
def setDeformFirst : List EBone → String → Bool → List EBone
  | [], _, _ => []
  | b :: bs, n, f =>
    if b.name = n then { b with use_deform := f } :: bs else b :: setDeformFirst bs n f

/-- Lookup in the `deform_flags` snapshot dict. -/
def flagLookup (fl : List (String × Bool)) (k : String) : Option Bool :=
  (fl.find? (fun p => p.1 == k)).map (·.2)

def tempSuffix : String := "_TMP_RENAME__"

/-- `rename_bones_edit_mode_preserve_flags(arm_obj, mapping)` returning
the final bone list together with `(applied, restored)`. -/
def rename_bones_edit_mode_preserve_flags (arm : List EBone)
    (mapping : List (String × String)) : List EBone × Nat × Nat :=
  if mapping = [] then (arm, 0, 0)
  else
    let deform_flags := arm.map (fun b => (b.name, b.use_deform))
    let pairs := mapping.filter
      (fun p => decide (p.1 ∈ ebKeys arm) && !(p.2 == "") && !(p.1 == p.2))
    let eb1 := pairs.foldl (fun eb p => renameFirst eb p.1 (p.2 ++ tempSuffix)) arm
    let phase2 := pairs.foldl (fun (st : List EBone × Nat) p =>
      let tmp := p.2 ++ tempSuffix
      if tmp ∈ ebKeys st.1 then (renameFirst st.1 tmp p.2, st.2 + 1) else st) (eb1, 0)
    let restore := pairs.foldl (fun (st : List EBone × Nat) p =>
      if p.2 ∈ ebKeys st.1 ∧ (flagLookup deform_flags p.1).isSome then
        (setDeformFirst st.1 p.2 ((flagLookup deform_flags p.1).getD false), st.2 + 1)
      else st) (phase2.1, 0)
    (restore.1, phase2.2, restore.2)

/-! ## ReferencePatcher: datapath rewriting and dependent-reference patching

`_replace_bone_in_datapath` (lines 123-127) rewrites every occurrence of
the token `pose.bones["old"]` in a curve data path; `patch_fcurves_actions`
(lines 240-257) folds the whole mapping over every curve's path;
`patch_vertex_groups_for_armature` (lines 221-229) renames matching vertex
groups on meshes bound to the armature; `patch_constraints_subtargets`
(lines 231-238) rewrites constraint subtarget names;
`patch_driver_fcurves` (lines 259-300) applies the same path rewrite to
driver curves and per-datablock action curves. -/

/-- Python substring test `pat in hay`. -/
def containsL : List Char → List Char → Bool
  | [], pat => pat.isEmpty
  | c :: t, pat => pat.isPrefixOf (c :: t) || containsL t pat

/-- Python `str.replace` scanning worker: replace each (non-overlapping,
leftmost-first) occurrence of `pat` by `rep`.  The `skip` counter consumes
the remaining characters of a just-matched occurrence; the function is
used only with non-empty `pat` (the guard makes an empty pattern a no-op,
whereas Python would interleave `rep` everywhere — that case is never
reached from the embedded code, whose pattern is a non-empty token). -/
def replaceAux (pat rep : List Char) : List Char → Nat → List Char
  | [], _ => []
  | c :: rest, 0 =>
    if !pat.isEmpty && pat.isPrefixOf (c :: rest) then
      rep ++ replaceAux pat rep rest (pat.length - 1)
    else c :: replaceAux pat rep rest 0
  | _ :: rest, k + 1 => replaceAux pat rep rest k

/-- Python `s.replace(pat, rep)` (for non-empty `pat`). -/
def pyReplace (s pat rep : String) : String :=
  String.mk (replaceAux pat.data rep.data s.data 0)

/-- The quoted path token `pose.bones["name"]`. -/
def boneToken (name : String) : String := "pose.bones[\"" ++ name ++ "\"]"

/-- `_replace_bone_in_datapath(dp, old, new)`: `some` of the rewritten
path when `dp` is non-empty and contains the `old` token, else `None`. -/
def replaceBoneInDatapath (dp old nw : String) : Option String :=
  if dp ≠ "" ∧ containsL dp.data (boneToken old).data then
    some (pyReplace dp (boneToken old) (boneToken nw))
  else none

/-- One iteration of the per-path mapping loop shared by
`patch_fcurves_actions` and `patch_driver_fcurves`: state is
`(new_dp, replaced_any)`. -/
def pathStep (st : String × Bool) (p : String × String) : String × Bool :=
  match replaceBoneInDatapath st.1 p.1 p.2 with
  | some res => if res ≠ "" ∧ res ≠ st.1 then (res, true) else st
  | none => st

/-- Apply every mapping entry in order to one data path. -/
def pathApplyMapping (mapping : List (String × String)) (dp : String) :
    String × Bool :=
  mapping.foldl pathStep (dp, false)

structure FCurve where
  data_path : String
deriving DecidableEq

structure Action where
  fcurves : List FCurve
deriving DecidableEq

/-- The per-curve body of `patch_fcurves_actions`: skip empty paths, else
run the mapping loop and write the path back when anything was replaced;
the Bool is the `changed` contribution. -/
def patchFCurve (mapping : List (String × String)) (fc : FCurve) :
    FCurve × Bool :=
  if fc.data_path = "" then (fc, false)
  else
    let r := pathApplyMapping mapping fc.data_path
    if r.2 then (⟨r.1⟩, true) else (fc, false)

/-- `patch_fcurves_actions(mapping)` over all actions in the document. -/
def patch_fcurves_actions (mapping : List (String × String))
    (acts : List Action) : List Action × Nat :=
  (acts.map (fun a => ⟨a.fcurves.map (fun fc => (patchFCurve mapping fc).1)⟩),
   (acts.map (fun a =>
     a.fcurves.countP (fun fc => (patchFCurve mapping fc).2))).sum)

/-- A mesh object: whether it carries an armature modifier bound to the
armature under consideration, and its vertex-group names. -/
structure MeshObj where
  bound : Bool
  vertex_groups : List String
deriving DecidableEq

/-- The per-group body of `patch_vertex_groups_for_armature`: rename the
group when the mapping holds a non-empty, different name for it. -/
def patchVG (mapping : List (String × String)) (g : String) : String :=
  match dictGet mapping g with
  | some n => if n ≠ "" ∧ n ≠ g then n else g
  | none => g

/-- `patch_vertex_groups_for_armature(arm_obj, mapping)`. -/
def patch_vertex_groups_for_armature (meshes : List MeshObj)
    (mapping : List (String × String)) : List MeshObj × Nat :=
  (meshes.map (fun m =>
    if m.bound then { m with vertex_groups := m.vertex_groups.map (patchVG mapping) }
    else m),
   (meshes.map (fun m =>
     if m.bound then m.vertex_groups.countP (fun g => patchVG mapping g != g)
     else 0)).sum)

/-- A pose-bone constraint: its name, whether it exposes a `subtarget`
field, the subtarget bone name, the target object (by index into the
scene's objects), and its kind tag. -/
structure Con where
  name : String
  has_subtarget : Bool
  subtarget : String
  target : Nat
  kind : String
deriving DecidableEq

structure PoseBone where
  name : String
  constraints : List Con
deriving DecidableEq

/-- The per-constraint body of `patch_constraints_subtargets`. -/
def patchCon (mapping : List (String × String)) (c : Con) : Con :=
  if c.has_subtarget ∧ dictMem mapping c.subtarget then
    { c with subtarget := (dictGet mapping c.subtarget).getD c.subtarget }
  else c

/-- `patch_constraints_subtargets(arm_obj, mapping)`; the count increments
whenever the subtarget is a mapping key, even if the written value is
unchanged. -/
def patch_constraints_subtargets (pbones : List PoseBone)
    (mapping : List (String × String)) : List PoseBone × Nat :=
  (pbones.map (fun pb =>
    { pb with constraints := pb.constraints.map (patchCon mapping) }),
   (pbones.map (fun pb =>
     pb.constraints.countP
       (fun c => c.has_subtarget && dictMem mapping c.subtarget))).sum)

/-- One `animation_data` block: driver curves plus an optional action. -/
structure AnimData where
  drivers : List FCurve
  action : Option Action
deriving DecidableEq

/-- `handle_animdata` inside `patch_driver_fcurves`: patch the drivers'
paths and the attached action's curve paths, counting changed curves. -/
def patchAnimData (mapping : List (String × String)) (ad : AnimData) :
    AnimData × Nat :=
  let ds := ad.drivers.map (fun d => (patchFCurve mapping d).1)
  let dc := ad.drivers.countP (fun d => (patchFCurve mapping d).2)
  match ad.action with
  | some a =>
    (⟨ds, some ⟨a.fcurves.map (fun fc => (patchFCurve mapping fc).1)⟩⟩,
     dc + a.fcurves.countP (fun fc => (patchFCurve mapping fc).2))
  | none => (⟨ds, none⟩, dc)

/-- `patch_driver_fcurves(mapping)` over the document-wide list of
animation-data blocks (objects, armatures, shape keys, materials,
worlds). -/
def patch_driver_fcurves (ads : List AnimData)
    (mapping : List (String × String)) : List AnimData × Nat :=
  (ads.map (fun ad => (patchAnimData mapping ad).1),
   (ads.map (fun ad => (patchAnimData mapping ad).2)).sum)

/-! ## MappingStore: the bone-map table and its save/load operators

`BoneMapItem` (lines 318-324) is the table row; `AJ_OT_bone_map_save_dialog`
(lines 593-626) builds the `{original: target}` dict from eligible rows —
mutating each eligible row's capture snapshot as it goes — and writes
`mapping_to_txt` of it; `AJ_OT_bone_map_load_dialog` (lines 628-694) parses
the chosen file, merges the parsed entries into the table (updating the
row found through an `{original_name: index}` dict built beforehand, or
appending a new row), updates `mapping_path` and clamps `active_index`,
and back-fills blank `Current` cells from the configured reference
armature.  File I/O is the external world: the read's outcome is a
parameter`Except String String`. -/

structure BoneMapRow where
  original_name : String
  current_name : String
  target_name : String
  cap_src : String
  cap_tgt : String
  mark : Bool
deriving DecidableEq

/-- `_bone_exists(arm_obj, name)` over the armature's bone-name list. -/
def bone_exists (armNames : List String) (name : String) : Bool :=
  !(name == "") && armNames.contains name

/-- In-place element update `l[i] = f(l[i])` (no-op when out of range). -/
def modifyAt {α : Type} : List α → Nat → (α → α) → List α
  | [], _, _ => []
  | x :: xs, 0, f => f x :: xs
  | x :: xs, i + 1, f => x :: modifyAt xs i f

/-- One iteration of the Save loop (lines 610-617): state is the rows
walked so far (modelling their in-place mutation) and the dict collected
so far.  A row with non-empty original and target contributes
`mapping[original] = target` and has its `cap_src`/`cap_tgt` overwritten
with the pair. -/
def saveStep (st : List BoneMapRow × List (String × String))
    (it : BoneMapRow) : List BoneMapRow × List (String × String) :=
  if it.original_name ≠ "" ∧ it.target_name ≠ "" then
    (st.1 ++ [{ it with cap_src := it.original_name, cap_tgt := it.target_name }],
     dictInsert st.2 it.original_name it.target_name)
  else (st.1 ++ [it], st.2)

/-- The save loop over the whole table. -/
def bone_map_save_execute (rows : List BoneMapRow) :
    List BoneMapRow × List (String × String) :=
  rows.foldl saveStep ([], [])

/-- The text written by Save: `mapping_to_txt` of the collected dict. -/
def bone_map_save_text (rows : List BoneMapRow) : String :=
  mapping_to_txt (bone_map_save_execute rows).2

inductive OpResult where
  | finished
  | cancelled
deriving DecidableEq

structure LoadState where
  rows : List BoneMapRow
  mapping_path : String
  active_index : Int
deriving DecidableEq

/-- `bpy.path.ensure_ext(path, ".txt")`. -/
def ensure_ext_txt (p : String) : String :=
  if (".txt" : String).data.isSuffixOf p.data then p else p ++ ".txt"

/-- The dict comprehension
`{it.original_name: i for i, it in enumerate(props.bone_map)}`. -/
def buildIndexAux (j : Nat) (d : List (String × Nat)) :
    List BoneMapRow → List (String × Nat)
  | [] => d
  | r :: rs => buildIndexAux (j + 1) (dictInsert d r.original_name j) rs

def buildIndex (rows : List BoneMapRow) : List (String × Nat) :=
  buildIndexAux 0 [] rows

/-- A row appended by Load for a mapping entry whose original is not in
the table (`new or old` is Python's falsy fallback for an empty value). -/
def newRow (p : String × String) : BoneMapRow :=
  { original_name := p.1, current_name := "",
    target_name := if p.2 = "" then p.1 else p.2,
    cap_src := p.1, cap_tgt := if p.2 = "" then p.1 else p.2, mark := false }

/-- One iteration of the Load merge loop (lines 671-685). -/
def mergeStep (idx : List (String × Nat)) (rs : List BoneMapRow)
    (p : String × String) : List BoneMapRow :=
  match dictGet idx p.1 with
  | some i => modifyAt rs i (fun it =>
      { it with target_name := if p.2 = "" then p.1 else p.2,
                cap_src := p.1, cap_tgt := if p.2 = "" then p.1 else p.2 })
  | none => rs ++ [newRow p]

/-- `active_index` clamp after the merge (lines 688-689). -/
def clampIndex (len : Nat) (i : Int) : Int :=
  if len ≠ 0 ∧ i ≥ len then (len : Int) - 1 else i

/-- `_prefill_current_from_arm` (lines 635-647) with `only_if_blank=True`:
no configured armature fills nothing; otherwise a blank Current becomes
the original name if that bone exists, else the target name if that bone
exists. -/
def prefillRow (armNames : List String) (it : BoneMapRow) : BoneMapRow :=
  if it.current_name ≠ "" then it
  else if bone_exists armNames it.original_name then
    { it with current_name := it.original_name }
  else if bone_exists armNames it.target_name then
    { it with current_name := it.target_name }
  else it

def prefill_current (arm : Option (List String)) (rows : List BoneMapRow) :
    List BoneMapRow :=
  match arm with
  | none => rows
  | some armNames => rows.map (prefillRow armNames)

/-- `AJ_OT_bone_map_load_dialog.execute` (lines 656-694): cancel with the
state untouched when no path was chosen or the file read raises; else
parse, merge into the table, update `mapping_path`, clamp `active_index`,
and prefill blank Currents. -/
def bone_map_load_execute (st : LoadState) (path : String)
    (fileRead : Except String String) (arm : Option (List String)) :
    OpResult × LoadState :=
  if path = "" then (.cancelled, st)
  else
    match fileRead with
    | .error _ => (.cancelled, st)
    | .ok text =>
      let mapping := parse_mapping_txt text
      let merged := mapping.foldl (mergeStep (buildIndex st.rows)) st.rows
      (.finished,
       { rows := prefill_current arm merged,
         mapping_path := ensure_ext_txt path,
         active_index := clampIndex merged.length st.active_index })

/-- The in-place row update performed by the merge for a mapping entry
found in the table (statement form used by the C5 theorem). -/
def updateBy (M : List (String × String)) (r : BoneMapRow) : BoneMapRow :=
  match dictGet M r.original_name with
  | some v =>
    { r with target_name := if v = "" then r.original_name else v,
             cap_src := r.original_name,
             cap_tgt := if v = "" then r.original_name else v }
  | none => r

/-- The per-row capture-snapshot overwrite performed by Save (statement
form used by the C10 theorem). -/
def updateCapRow (it : BoneMapRow) : BoneMapRow :=
  if it.original_name ≠ "" ∧ it.target_name ≠ "" then
    { it with cap_src := it.original_name, cap_tgt := it.target_name }
  else it

/-- The dict projection of the Save loop (statement form). -/
def saveMappingStep (m : List (String × String)) (it : BoneMapRow) :
    List (String × String) :=
  if it.original_name ≠ "" ∧ it.target_name ≠ "" then
    dictInsert m it.original_name it.target_name
  else m

/-- The target of the last row with non-empty original and target whose
original is `k` (statement form: what Python's dict retains for key `k`
after the Save loop — the last eligible row wins). -/
def lastEligStep (k : String) (acc : Option String) (it : BoneMapRow) :
    Option String :=
  if it.original_name ≠ "" ∧ it.target_name ≠ "" ∧ it.original_name = k
  then some it.target_name else acc

def lastEligTarget (rows : List BoneMapRow) (k : String) : Option String :=
  rows.foldl (lastEligStep k) none

/-- First index (from `j`) of a row whose original is `o` (proof-side spec
for the `{original: index}` dict of Load). -/
def findRowIdxAux (o : String) : List BoneMapRow → Nat → Option Nat
  | [], _ => none
  | r :: rs, j =>
    if r.original_name = o then some j else findRowIdxAux o rs (j + 1)

/-! ## FollowConstraintManager: live-follow constraints (lines 763-866)

Constraints named with the reserved prefix `AJ_FOLLOW` implement the live
coupling.  `_remove_follow_constraints` strips every reserved-prefix
constraint from both armatures; `_add_follow_constraints` walks the
mapping rows and, for each row whose two names are non-empty and exist on
their armatures, removes any reserved-prefix constraints already on the
destination pose bone and appends one new constraint (COPY_ROTATION or
COPY_TRANSFORMS by mode) whose `target` is the source armature (object id
0 = Source, 1 = Target) and whose `subtarget` is the source bone.  The
toggle operators flip their own flag, force the opposite flag off, tear
everything down and re-add when switching on.  (Host-only constraint
fields such as mix mode and spaces are not modelled.) -/

def conPrefix : String := "AJ_FOLLOW"

inductive FollowMode where
  | rot
  | xform
deriving DecidableEq

inductive FollowDir where
  | a2b
  | b2a
deriving DecidableEq

structure FollowProps where
  rows : List BoneMapRow
  follow_mode : FollowMode
  live_follow_a2b : Bool
  live_follow_b2a : Bool
deriving DecidableEq

/-- `con.name.startswith(AJ_CON_PREFIX)`. -/
def isReserved (c : Con) : Bool := conPrefix.data.isPrefixOf c.name.data

def removeReserved (pb : PoseBone) : PoseBone :=
  { pb with constraints := pb.constraints.filter (fun c => !(isReserved c)) }

/-- `_remove_follow_constraints(props)`, returning both armatures and the
removed count. -/
def remove_follow_constraints (armA armB : List PoseBone) :
    List PoseBone × List PoseBone × Nat :=
  (armA.map removeReserved, armB.map removeReserved,
   (armA.map (fun pb => pb.constraints.countP isReserved)).sum +
     (armB.map (fun pb => pb.constraints.countP isReserved)).sum)

/-- The constraint installed for one row (object id of the source
armature, source-bone subtarget). -/
def mkFollowCon (mode : FollowMode) (srcArm : Nat) (srcBone : String) : Con :=
  match mode with
  | .xform => ⟨conPrefix ++ "_XFORM", true, srcBone, srcArm, "COPY_TRANSFORMS"⟩
  | .rot => ⟨conPrefix ++ "_ROT", true, srcBone, srcArm, "COPY_ROTATION"⟩

/-- Install one follow constraint on the destination bone: drop its
existing reserved-prefix constraints, append the new one. -/
def addFollowOnBone (mode : FollowMode) (srcArm : Nat) (srcBone : String)
    (dstArm : List PoseBone) (dstBone : String) : List PoseBone :=
  dstArm.map (fun pb =>
    if pb.name = dstBone then
      { pb with constraints :=
          pb.constraints.filter (fun c => !(isReserved c)) ++
            [mkFollowCon mode srcArm srcBone] }
    else pb)

def armNames (arm : List PoseBone) : List String := arm.map (fun pb => pb.name)

/-- `_add_follow_constraints(props, direction)`: state is
`(armA, armB, added)`. -/
def add_follow_constraints (props : FollowProps) (armA armB : List PoseBone)
    (dir : FollowDir) : List PoseBone × List PoseBone × Nat :=
  props.rows.foldl (fun st it =>
    if it.original_name = "" ∨ it.target_name = "" then st
    else
      match dir with
      | .a2b =>
        if bone_exists (armNames st.1) it.original_name &&
            bone_exists (armNames st.2.1) it.target_name then
          (st.1,
           addFollowOnBone props.follow_mode 0 it.original_name st.2.1
             it.target_name,
           st.2.2 + 1)
        else st
      | .b2a =>
        if bone_exists (armNames st.2.1) it.target_name &&
            bone_exists (armNames st.1) it.original_name then
          (addFollowOnBone props.follow_mode 1 it.target_name st.1
             it.original_name,
           st.2.1,
           st.2.2 + 1)
        else st) (armA, armB, 0)

/-- `AJ_OT_toggle_follow_a2b.execute`: flip the A→B flag; when switching
on, force B→A off, tear down and re-add; when switching off, just tear
down.  Returns the new props, both armatures, and the reported count. -/
def toggle_follow_a2b (props : FollowProps) (armA armB : List PoseBone) :
    FollowProps × List PoseBone × List PoseBone × Nat :=
  let p1 := { props with live_follow_a2b := !props.live_follow_a2b }
  if p1.live_follow_a2b then
    let p2 := { p1 with live_follow_b2a := false }
    let r := remove_follow_constraints armA armB
    let a := add_follow_constraints p2 r.1 r.2.1 .a2b
    (p2, a.1, a.2.1, a.2.2)
  else
    let r := remove_follow_constraints armA armB
    (p1, r.1, r.2.1, r.2.2)

/-- The source bone of the *last* row eligible for A→B follow that
targets destination bone `b` (statement form for the amended C6). -/
def lastSrcFor (namesA namesB : List String) (rows : List BoneMapRow)
    (b : String) : Option String :=
  rows.foldl (fun acc it =>
    if it.original_name ≠ "" ∧ it.target_name ≠ "" ∧
        bone_exists namesA it.original_name = true ∧
        bone_exists namesB it.target_name = true ∧ it.target_name = b
    then some it.original_name else acc) none

/-- The reserved constraints a destination bone ends up with. -/
def followConsFor (mode : FollowMode) (src : Option String) : List Con :=
  match src with
  | some s => [mkFollowCon mode 0 s]
  | none => []

/-- The rows eligible for A→B follow. -/
def eligRowsA2B (rows : List BoneMapRow) (namesA namesB : List String) :
    List BoneMapRow :=
  rows.filter (fun it =>
    !(it.original_name == "") && !(it.target_name == "") &&
      bone_exists namesA it.original_name && bone_exists namesB it.target_name)

/-- A destination bone with its final follow constraints appended
(statement form for the amended C6). -/
def withFollow (mode : FollowMode) (namesA namesB : List String)
    (rows : List BoneMapRow) (pb : PoseBone) : PoseBone :=
  { pb with constraints :=
      pb.constraints ++ followConsFor mode (lastSrcFor namesA namesB rows pb.name) }

/-! ## Exporter: the single-file export command

`_apply_temp_mapping_if_needed` (lines 907-921) builds the
`original -> target` dict from the bone-map table, keeps the entries
whose key differs from the value and names an existing bone, and — when
any survive — runs the rename plus the four reference patchers and
returns the inverse dict (value -> key); `_revert_temp_mapping`
(lines 923-931) replays the same pipeline with the inverse (it is a
no-op on a falsy argument).  `AJ_OT_export_current_action.execute`
(lines 974-1040) applies the temporary mapping, saves the scene frame
range and switches it to the action range, rotates the export objects
in world space saving their matrices (`_temporarily_rotate_world`,
lines 957-962) — the armature always, the bound meshes only on the
FBX-with-mesh path — and calls the exporter inside `try`.  The `except`
branch (lines 1029-1034) writes the saved matrices back
(`_restore_world`), restores the frame range, reverts the temporary
mapping and returns `CANCELLED`; the success path does the same and
returns `FINISHED`.  The BVH path installs the `AJ_BVH_ROT` helper
constraints and helper empty (lines 933-946) before exporting and
clears them (line 1028) only when the exporter returns.  World matrices
are an abstract type `W`, rotation by the configured Euler angles is an
abstract `R : W → W`, and the outcome of the exporter call is the
parameter `exporterFails`. -/

inductive ExpFormat where
  | fbx
  | bvh
deriving DecidableEq

/-- The slice of `aj_props` the export command reads (besides the
armature pick and output path, which select the scene and file). -/
structure ExpProps where
  export_format : ExpFormat
  include_mesh : Bool
  rename_on_export : Bool
  bone_map : List BoneMapRow
deriving DecidableEq

/-- The mutable world the export command touches: the chosen armature's
edit bones, pose bones and bound meshes, the document's actions and
animation-data blocks, the active action's frame range, the scene frame
range, the world matrices (armature and bound meshes, abstract type
`W`), and the number of installed `AJ_BVH_ROT` helper constraints. -/
structure ExpScene (W : Type) where
  bones : List EBone
  meshes : List MeshObj
  pbones : List PoseBone
  acts : List Action
  ads : List AnimData
  actionRange : Option (Int × Int)
  frame_start : Int
  frame_end : Int
  armMat : W
  meshMats : List W
  helperCons : Nat

/-- Lines 910-911: the dict comprehension over the bone-map rows
followed by the existing-and-different filter. -/
def exportMappingFor (rows : List BoneMapRow) (bones : List EBone) :
    List (String × String) :=
  (rows.foldl (fun m it =>
    if !(it.original_name == "") && !(it.target_name == "") then
      dictInsert m it.original_name it.target_name
    else m) []).filter
    (fun q => !(q.1 == q.2) && bone_exists (ebKeys bones) q.1)

/-- Line 920: the inverse dict comprehension (value -> key). -/
def invertMapping (mapping : List (String × String)) :
    List (String × String) :=
  mapping.foldl (fun m q => dictInsert m q.2 q.1) []

/-- Lines 914-918 / 926-930: the rename and the four reference patchers
applied to the scene (their counts are discarded by these callers). -/
def applyPipeline {W : Type} (mapping : List (String × String))
    (sc : ExpScene W) : ExpScene W :=
  { sc with
    bones := (rename_bones_edit_mode_preserve_flags sc.bones mapping).1
    meshes := (patch_vertex_groups_for_armature sc.meshes mapping).1
    pbones := (patch_constraints_subtargets sc.pbones mapping).1
    acts := (patch_fcurves_actions mapping sc.acts).1
    ads := (patch_driver_fcurves sc.ads mapping).1 }

/-- `_apply_temp_mapping_if_needed(props, arm)` (lines 907-921):
returns the inverse mapping (when one was applied) and the scene. -/
def apply_temp_mapping_if_needed {W : Type} (p : ExpProps)
    (sc : ExpScene W) : Option (List (String × String)) × ExpScene W :=
  if !p.rename_on_export then (none, sc)
  else
    let mapping := exportMappingFor p.bone_map sc.bones
    if mapping = [] then (none, sc)
    else (some (invertMapping mapping), applyPipeline mapping sc)

/-- `_revert_temp_mapping(inv_mapping, arm)` (lines 923-931). -/
def revert_temp_mapping {W : Type}
    (inv : Option (List (String × String))) (sc : ExpScene W) :
    ExpScene W :=
  match inv with
  | some m => if m = [] then sc else applyPipeline m sc
  | none => sc

/-- `AJ_OT_export_current_action.execute` (lines 974-1040) after a valid
armature pick, with the exporter call's outcome as a parameter. -/
def export_current_action_execute {W : Type} (p : ExpProps) (R : W → W)
    (exporterFails : Bool) (sc : ExpScene W) : OpResult × ExpScene W :=
  let st1 := apply_temp_mapping_if_needed p sc
  let inv := st1.1
  let sc1 := st1.2
  let orig_fs := sc1.frame_start
  let orig_fe := sc1.frame_end
  let sc2 :=
    match sc1.actionRange with
    | some r => { sc1 with frame_start := r.1, frame_end := r.2 }
    | none => sc1
  let savedArm := sc2.armMat
  let savedMeshes := sc2.meshMats
  let rotMeshes := p.export_format = ExpFormat.fbx ∧ p.include_mesh = true
  let sc3 := { sc2 with
    armMat := R sc2.armMat
    meshMats := if rotMeshes then sc2.meshMats.map R else sc2.meshMats }
  let sc4 :=
    if p.export_format = ExpFormat.bvh then
      { sc3 with helperCons := sc3.helperCons + 1 }
    else sc3
  if exporterFails then
    let sc5 := { sc4 with
      armMat := savedArm
      meshMats := if rotMeshes then savedMeshes else sc4.meshMats
      frame_start := orig_fs
      frame_end := orig_fe }
    (OpResult.cancelled, revert_temp_mapping inv sc5)
  else
    let sc4b :=
      if p.export_format = ExpFormat.bvh then
        { sc4 with helperCons := sc4.helperCons - 1 }
      else sc4
    let sc5 := { sc4b with
      armMat := savedArm
      meshMats := if rotMeshes then savedMeshes else sc4b.meshMats
      frame_start := orig_fs
      frame_end := orig_fe }
    (OpResult.finished, revert_temp_mapping inv sc5)

/-- Pointwise name substitution on one bone — the net effect of the
two-phase rename when every target name is fresh. -/
def renameSub (M : List (String × String)) (b : EBone) : EBone :=
  match dictGet M b.name with
  | some n => { b with name := n }
  | none => b

/-- Name substitution on a bare name. -/
def subName (M : List (String × String)) (s : String) : String :=
  match dictGet M s with
  | some n => n
  | none => s

/-- Mid-phase-1 shape of the bone list: bones whose name is a processed
key already carry the temp-suffixed target name. -/
def ph1Sub (P : List (String × String)) (b : EBone) : EBone :=
  match dictGet P b.name with
  | some n => { b with name := n ++ tempSuffix }
  | none => b

/-- Mid-phase-2 shape: keys of `P` are final, keys of `rest` still carry
the temp suffix. -/
def ph2Sub (P rest : List (String × String)) (b : EBone) : EBone :=
  match dictGet P b.name with
  | some n => { b with name := n }
  | none => ph1Sub rest b

/-- Preconditions under which the two-phase rename acts as the pointwise
substitution `renameSub`: bone names distinct, non-empty and free of the
temp suffix; mapping keys distinct and naming existing bones; mapping
values distinct, non-empty, absent from the armature and free of the
temp suffix; no entry maps a name to itself. -/
def FreshRenameOK (arm : List EBone)
    (mapping : List (String × String)) : Prop :=
  (ebKeys arm).Nodup ∧
  (∀ s ∈ ebKeys arm, s ≠ "" ∧ tempSuffix.data.isSuffixOf s.data = false) ∧
  (mapping.map Prod.fst).Nodup ∧
  (mapping.map Prod.snd).Nodup ∧
  (∀ q ∈ mapping, q.1 ∈ ebKeys arm ∧ q.2 ≠ "" ∧ q.1 ≠ q.2 ∧
    q.2 ∉ ebKeys arm ∧ tempSuffix.data.isSuffixOf q.2.data = false)

/-! ## Proofs -/

theorem data_joinLines (ls : List String) :
    (joinLines ls).data = joinL (ls.map String.data) := by
  induction ls with
  | nil => rfl
  | cons l ls ih =>
    cases ls with
    | nil => rfl
    | cons l2 ls2 =>
      show ((l ++ "\n") ++ joinLines (l2 :: ls2)).data = _
      simp only [String.data_append, ih]
      simp [joinL]

theorem splitlinesGo_append (d : List Char)
    (hd : ∀ c ∈ d, isLineBreak c = false) :
    ∀ acc rest, splitlinesGo false acc (d ++ rest) =
      splitlinesGo false (d.reverse ++ acc) rest := by
  induction d with
  | nil => intro acc rest; simp
  | cons c d ih =>
    intro acc rest
    have hc : isLineBreak c = false := hd c (by simp)
    have hcr : ¬ (c = '\r') := by
      intro h; subst h; simp [isLineBreak] at hc
    show splitlinesGo false acc (c :: (d ++ rest)) = _
    rw [splitlinesGo]
    simp only [Bool.false_and, Bool.false_eq_true, if_false, hcr, if_neg, hc]
    rw [ih (fun x hx => hd x (by simp [hx])) (c :: acc) rest]
    simp

theorem splitlinesGo_newline (acc rest) :
    splitlinesGo false acc ('\n' :: rest) =
      acc.reverse :: splitlinesGo false [] rest := by
  rw [splitlinesGo]
  simp only [Bool.false_and, Bool.false_eq_true, if_false]
  rw [if_neg (by decide), if_pos (by decide)]

theorem pySplitlines_joinL (ds : List (List Char))
    (h : ∀ d ∈ ds, d ≠ [] ∧ ∀ c ∈ d, isLineBreak c = false) :
    ds ≠ [] → pySplitlines (joinL ds) = ds := by
  induction ds with
  | nil => intro hne; exact absurd rfl hne
  | cons d ds ih =>
    intro _
    have hne : d ≠ [] := (h d (by simp)).1
    have hcl : ∀ c ∈ d, isLineBreak c = false := (h d (by simp)).2
    cases ds with
    | nil =>
      show pySplitlines (joinL [d]) = [d]
      have : joinL [d] = d ++ [] := by simp [joinL]
      rw [pySplitlines, this, splitlinesGo_append d hcl]
      rw [splitlinesGo]
      rw [if_neg (by simp [hne])]
      simp
    | cons d2 ds2 =>
      show pySplitlines (joinL (d :: d2 :: ds2)) = d :: d2 :: ds2
      have hj : joinL (d :: d2 :: ds2) = d ++ '\n' :: joinL (d2 :: ds2) := rfl
      rw [pySplitlines, hj, splitlinesGo_append d hcl]
      rw [show (d.reverse ++ [] : List Char) = d.reverse by simp]
      rw [splitlinesGo_newline]
      rw [List.reverse_reverse]
      have := ih (fun x hx => h x (by simp [hx])) (by simp)
      rw [pySplitlines] at this
      rw [this]

theorem pyStrip_eq_self (l : List Char)
    (h1 : ∀ c, l.head? = some c → isPySpace c = false)
    (h2 : ∀ c, l.getLast? = some c → isPySpace c = false) :
    pyStrip l = l := by
  unfold pyStrip
  have d1 : l.dropWhile isPySpace = l := by
    cases l with
    | nil => rfl
    | cons a t => rw [List.dropWhile_cons, if_neg (by simp [h1 a rfl])]
  rw [d1]
  have d2 : l.reverse.dropWhile isPySpace = l.reverse := by
    cases hr : l.reverse with
    | nil => rfl
    | cons a t =>
      rw [List.dropWhile_cons, if_neg]
      have hg : l.getLast? = some a := by
        rw [← List.head?_reverse, hr]; rfl
      simp [h2 a hg]
  rw [d2, List.reverse_reverse]

theorem takeWhile_append_eq (p : Char → Bool) (l r : List Char) (x : Char)
    (hl : ∀ c ∈ l, p c = true) (hx : p x = false) :
    (l ++ x :: r).takeWhile p = l := by
  induction l with
  | nil => simp [List.takeWhile_cons, hx]
  | cons a t ih =>
    have ha : p a = true := hl a (by simp)
    simp [List.takeWhile_cons, ha, ih (fun c hc => hl c (by simp [hc]))]

theorem dropWhile_append_eq (p : Char → Bool) (l r : List Char) (x : Char)
    (hl : ∀ c ∈ l, p c = true) (hx : p x = false) :
    (l ++ x :: r).dropWhile p = x :: r := by
  induction l with
  | nil => simp [List.dropWhile_cons, hx]
  | cons a t ih =>
    simp only [List.cons_append, List.dropWhile_cons, hl a (by simp), if_pos]
    exact ih (fun c hc => hl c (by simp [hc]))

theorem dictInsert_fresh (m : List (String × String)) (k v : String)
    (h : ∀ p ∈ m, p.1 ≠ k) : dictInsert m k v = m ++ [(k, v)] := by
  unfold dictInsert
  rw [if_neg]
  simp only [List.any_eq_true, beq_iff_eq, not_exists, not_and]
  intro p hp
  exact h p hp

theorem parseStep_goodPair (m : List (String × String)) (k v : String)
    (h : goodPair (k, v)) :
    parseStep m (k.data ++ '=' :: v.data) = dictInsert m k v := by
  obtain ⟨hk, hv, hkc, hvc, hkh, hkl, hvh, hvl⟩ := h
  have hline : pyStrip (k.data ++ '=' :: v.data) = k.data ++ '=' :: v.data := by
    apply pyStrip_eq_self
    · intro c hc
      rw [List.head?_append] at hc
      cases hh : k.data.head? with
      | none => exact absurd (List.head?_eq_none_iff.mp hh) hk
      | some a =>
        rw [hh] at hc
        simp only [Option.or_some] at hc
        obtain rfl : a = c := by simpa using hc
        rw [hh] at hkh
        simp only [Option.all_some, Bool.and_eq_true, Bool.not_eq_true'] at hkh
        exact hkh.1
    · intro c hc
      rw [show ((k.data ++ '=' :: v.data) : List Char) = (k.data ++ ['=']) ++ v.data
          by simp] at hc
      rw [List.getLast?_append] at hc
      cases hg : v.data.getLast? with
      | none => exact absurd (List.getLast?_eq_none_iff.mp hg) hv
      | some a =>
        rw [hg] at hc
        simp only [Option.or_some] at hc
        obtain rfl : a = c := by simpa using hc
        rw [hg] at hvl
        simpa using hvl
  rw [parseStep]
  simp only [hline]
  rw [if_neg (by simp [hk])]
  have hhead : (k.data ++ '=' :: v.data).head? ≠ some '#' := by
    rw [List.head?_append]
    cases hh : k.data.head? with
    | none => exact absurd (List.head?_eq_none_iff.mp hh) hk
    | some a =>
      rw [hh] at hkh
      simp only [Option.all_some, Bool.and_eq_true, Bool.not_eq_true'] at hkh
      simp only [Option.or_some, ne_eq, Option.some.injEq]
      intro hac
      rw [hac] at hkh
      simpa using hkh.2
  rw [if_neg hhead]
  rw [if_pos (by simp)]
  have htake : ((k.data ++ '=' :: v.data).takeWhile fun c => c != '=') = k.data := by
    apply takeWhile_append_eq
    · intro c hc
      have := (hkc c hc).2.1
      simpa [bne_iff_ne]
    · simp
  have hdrop : ((k.data ++ '=' :: v.data).dropWhile fun c => c != '=') = '=' :: v.data := by
    apply dropWhile_append_eq
    · intro c hc
      have := (hkc c hc).2.1
      simpa [bne_iff_ne]
    · simp
  simp only [htake, hdrop, List.drop_succ_cons, List.drop_zero]
  have hsk : pyStrip k.data = k.data := by
    apply pyStrip_eq_self
    · intro c hc; rw [hc] at hkh
      simp only [Option.all_some, Bool.and_eq_true, Bool.not_eq_true'] at hkh
      exact hkh.1
    · intro c hc; rw [hc] at hkl; simpa using hkl
  have hsv : pyStrip v.data = v.data := by
    apply pyStrip_eq_self
    · intro c hc; rw [hc] at hvh; simpa using hvh
    · intro c hc; rw [hc] at hvl; simpa using hvl
  rw [hsk, hsv, if_neg (by simp [hk])]

theorem parseStep_header1 (m : List (String × String)) :
    parseStep m ("# bone_old=bone_new".data) = m := rfl

theorem parseStep_header2 (m : List (String × String)) :
    parseStep m ("# lines starting with # are comments".data) = m := rfl

theorem foldl_parseStep_headers (rest : List (List Char)) :
    List.foldl parseStep []
      ("# bone_old=bone_new".data ::
        "# lines starting with # are comments".data :: rest) =
    List.foldl parseStep [] rest := rfl

theorem foldl_parseStep_goodLines (M : List (String × String)) :
    ∀ m, (∀ p ∈ M, goodPair p) → (M.map Prod.fst).Nodup →
    (∀ p ∈ M, ∀ q ∈ m, q.1 ≠ p.1) →
    List.foldl parseStep m (M.map (fun p => p.1.data ++ '=' :: p.2.data)) = m ++ M := by
  induction M with
  | nil => intro m _ _ _; simp
  | cons p M ih =>
    intro m hg hnd hdisj
    have hnd0 : p.1 ∉ (M.map Prod.fst) ∧ (M.map Prod.fst).Nodup := by
      rw [List.map_cons, List.nodup_cons] at hnd; exact hnd
    simp only [List.map_cons, List.foldl_cons]
    rw [parseStep_goodPair m p.1 p.2 (hg p (by simp))]
    rw [dictInsert_fresh _ _ _ (fun q hq => hdisj p (by simp) q hq)]
    rw [ih (m ++ [(p.1, p.2)]) (fun q hq => hg q (by simp [hq])) hnd0.2
        (fun q hq r hr => ?_)]
    · simp
    · rcases List.mem_append.mp hr with hrm | hrp
      · exact hdisj q (by simp [hq]) r hrm
      · have hrq : r = (p.1, p.2) := by simpa using hrp
        subst hrq
        intro hcon
        exact hnd0.1 (by
          rw [show p.1 = q.1 from hcon]
          exact List.mem_map.mpr ⟨q, hq, rfl⟩)

theorem data_entryLine (p : String × String) :
    (p.1 ++ "=" ++ p.2).data = p.1.data ++ '=' :: p.2.data := by
  simp only [String.data_append, List.append_assoc]
  rfl

/-- C2, counterexample to the claim as stated: the mapping
`[("a", "b\nc")]` has a non-empty key and value, and the key contains
neither `=` nor a newline, yet parsing its serialization yields
`[("a", "b")]`, not the original mapping (the newline inside the *value*
breaks the round trip). -/
theorem c2_roundtrip_counterexample :
    ("a" : String) ≠ "" ∧ ("b\nc" : String) ≠ "" ∧
    '=' ∉ ("a" : String).data ∧ '\n' ∉ ("a" : String).data ∧
    parse_mapping_txt (mapping_to_txt [("a", "b\nc")]) ≠ [("a", "b\nc")] := by
  decide

/-- C2 (amended): for every mapping whose keys are distinct and whose
entries are `goodPair`s — non-empty ASCII key and value, no `=` and no
line-break character in the key, no line-break character in the value, no
leading or trailing whitespace on either side, and a key not starting
with `#` — `parse_mapping_txt (mapping_to_txt M) = M`. -/
theorem c2_roundtrip_amended (M : List (String × String))
    (hnd : (M.map Prod.fst).Nodup) (hg : ∀ p ∈ M, goodPair p) :
    parse_mapping_txt (mapping_to_txt M) = M := by
  unfold parse_mapping_txt mapping_to_txt
  rw [data_joinLines]
  have hmap : (["# bone_old=bone_new", "# lines starting with # are comments"] ++
      M.map fun p => p.1 ++ "=" ++ p.2).map String.data =
      "# bone_old=bone_new".data :: "# lines starting with # are comments".data ::
      M.map (fun p => p.1.data ++ '=' :: p.2.data) := by
    simp only [List.map_append, List.map_cons, List.map_nil, List.map_map,
      List.cons_append, List.nil_append]
    congr 1
    congr 1
    exact List.map_congr_left (fun p _ => data_entryLine p)
  rw [hmap, pySplitlines_joinL _ ?clean (by simp)]
  · rw [foldl_parseStep_headers]
    rw [foldl_parseStep_goodLines M [] hg hnd (by intro p _ q hq; simp at hq)]
    simp
  case clean =>
    intro d hd
    simp only [List.mem_cons, List.mem_map] at hd
    rcases hd with rfl | rfl | ⟨p, hp, rfl⟩
    · exact ⟨by decide, by decide⟩
    · exact ⟨by decide, by decide⟩
    · obtain ⟨hk, hv, hkc, hvc, _⟩ := hg p hp
      refine ⟨by simp, ?_⟩
      intro c hc
      rcases List.mem_append.mp hc with h1 | h2
      · exact (hkc c h1).2.2
      · rcases List.mem_cons.mp h2 with rfl | h3
        · decide
        · exact (hvc c h3).2

/-- C2, witness: the amended round-trip theorem applied to the concrete
mapping `[("mixamorig:Hips", "Hips")]` from the spec's scenario. -/
theorem c2_roundtrip_witness :
    parse_mapping_txt (mapping_to_txt [(("mixamorig:Hips" : String), ("Hips" : String))]) =
      [(("mixamorig:Hips" : String), ("Hips" : String))] :=
  c2_roundtrip_amended _ (by decide) (by decide)


theorem tempSuffix_append_ne (s : String) : s ++ tempSuffix ≠ s := by
  intro h
  have h2 : (s ++ tempSuffix).data = s.data := congrArg String.data h
  rw [String.data_append] at h2
  have h3 := congrArg List.length h2
  simp only [List.length_append] at h3
  have hl : ("_TMP_RENAME__".data).length = 13 := rfl
  rw [show tempSuffix.data = "_TMP_RENAME__".data from rfl, hl] at h3
  omega

/-- C1 (confirmed): swapping two bones `A` and `B` with the mapping
`[(A, B), (B, A)]` leaves an armature with exactly two bones again, the
first (formerly `A`) now named `B` and still carrying `A`'s old flag,
the second (formerly `B`) now named `A` and carrying `B`'s old flag —
so the deform flags attached to the two *names* are swapped, and both
counters report 2.  Hypotheses: the two names are distinct, non-empty,
and neither equals the other's temp-suffixed form. -/
theorem c1_swap_rename (A B : String) (fA fB : Bool)
    (hAB : A ≠ B) (hA : A ≠ "") (hB : B ≠ "")
    (hA1 : A ≠ B ++ tempSuffix) (hB1 : B ≠ A ++ tempSuffix) :
    rename_bones_edit_mode_preserve_flags
      [⟨A, fA⟩, ⟨B, fB⟩] [(A, B), (B, A)] =
      ([⟨B, fA⟩, ⟨A, fB⟩], 2, 2) := by
  have hBA : B ≠ A := hAB.symm
  have n1 : ¬(B ++ tempSuffix = B) := tempSuffix_append_ne B
  have n2 : ¬(A ++ tempSuffix = A) := tempSuffix_append_ne A
  have n4 : ¬(A ++ tempSuffix = B) := fun h => hB1 h.symm
  have n5 : ¬(B ++ tempSuffix = A) := fun h => hA1 h.symm
  simp [rename_bones_edit_mode_preserve_flags, ebKeys, renameFirst,
    setDeformFirst, flagLookup, hAB, hBA, hA, hB, hA1, hB1, n1, n2, n4, n5]

/-- C1, witness: the swap theorem at the concrete bones `A`, `B` with
flags `true`, `false`. -/
theorem c1_swap_rename_witness :
    rename_bones_edit_mode_preserve_flags
      [⟨"A", true⟩, ⟨"B", false⟩] [("A", "B"), ("B", "A")] =
      ([⟨"B", true⟩, ⟨"A", false⟩], 2, 2) :=
  c1_swap_rename "A" "B" true false (by decide) (by decide) (by decide)
    (by decide) (by decide)

theorem replaceAux_skip (pat rep : List Char) (u : List Char) :
    ∀ v, replaceAux pat rep (u ++ v) u.length = replaceAux pat rep v 0 := by
  induction u with
  | nil => intro v; rfl
  | cons a u ih =>
    intro v
    show replaceAux pat rep (a :: (u ++ v)) (u.length + 1) = _
    simp only [replaceAux]
    exact ih v

theorem replaceAux_self (pat : List Char) (s : List Char) :
    replaceAux pat pat s 0 = s := by
  suffices h : ∀ n s, s.length ≤ n → replaceAux pat pat s 0 = s from
    h s.length s le_rfl
  intro n
  induction n with
  | zero =>
    intro s hs
    have : s = [] := List.length_eq_zero.mp (Nat.le_zero.mp hs)
    subst this; rfl
  | succ n ih =>
    intro s hs
    cases s with
    | nil => rfl
    | cons c rest =>
      by_cases hp : (!pat.isEmpty && pat.isPrefixOf (c :: rest)) = true
      · have hp2 : pat.isPrefixOf (c :: rest) = true := by
          have := hp; simp only [Bool.and_eq_true] at this; exact this.2
        have hpre : pat <+: c :: rest := List.isPrefixOf_iff_prefix.mp hp2
        have hpe : pat ≠ [] := by
          intro h; rw [h] at hp; simp at hp
        obtain ⟨t, ht⟩ := hpre
        cases pat with
        | nil => exact absurd rfl hpe
        | cons c0 p' =>
          have ht2 := ht
          rw [List.cons_append] at ht2
          injection ht2 with h1 h2
          simp only [replaceAux]
          rw [if_pos hp]
          have hlen : (c0 :: p').length - 1 = p'.length := by simp
          rw [hlen, ← h2, replaceAux_skip]
          have htle : t.length ≤ n := by
            have hr : rest.length ≤ n := by simpa using Nat.le_of_succ_le_succ hs
            have htr : t.length ≤ rest.length := by
              rw [← h2]; simp
            omega
          rw [ih t htle, h1]
          simp
      · simp only [replaceAux]
        rw [if_neg hp, ih rest (by simpa using Nat.le_of_succ_le_succ hs)]

theorem pyReplace_self (s pat : String) : pyReplace s pat pat = s := by
  unfold pyReplace
  rw [replaceAux_self]

theorem pathStep_id (st : String × Bool) (p : String × String)
    (hp : p.1 = p.2) : pathStep st p = st := by
  unfold pathStep replaceBoneInDatapath
  rw [← hp]
  by_cases hc : st.1 ≠ "" ∧ containsL st.1.data (boneToken p.1).data = true
  · rw [if_pos hc]
    simp only [pyReplace_self]
    rw [if_neg (by simp)]
  · rw [if_neg hc]

theorem pathApplyMapping_id (mapping : List (String × String))
    (hid : ∀ p ∈ mapping, p.1 = p.2) (dp : String) :
    pathApplyMapping mapping dp = (dp, false) := by
  unfold pathApplyMapping
  induction mapping with
  | nil => rfl
  | cons p M ih =>
    rw [List.foldl_cons, pathStep_id _ _ (hid p (by simp))]
    exact ih (fun q hq => hid q (by simp [hq]))

theorem patchFCurve_id (mapping : List (String × String))
    (hid : ∀ p ∈ mapping, p.1 = p.2) (fc : FCurve) :
    patchFCurve mapping fc = (fc, false) := by
  unfold patchFCurve
  by_cases h : fc.data_path = ""
  · rw [if_pos h]
  · rw [if_neg h]
    simp only [pathApplyMapping_id mapping hid]
    simp

theorem patchVG_id (mapping : List (String × String))
    (hid : ∀ p ∈ mapping, p.1 = p.2) (g : String) :
    patchVG mapping g = g := by
  unfold patchVG
  cases hf : mapping.find? (fun p => p.1 == g) with
  | none => simp [dictGet, hf]
  | some q =>
    have hq1 : q.1 = g := by simpa using List.find?_some hf
    have hq2 : q.2 = g := by
      rw [← hq1]; exact (hid q (List.mem_of_find?_eq_some hf)).symm
    simp [dictGet, hf, hq2]

theorem patchCon_id (mapping : List (String × String))
    (hid : ∀ p ∈ mapping, p.1 = p.2) (c : Con) :
    patchCon mapping c = c := by
  unfold patchCon
  by_cases h : c.has_subtarget = true ∧ dictMem mapping c.subtarget = true
  · rw [if_pos h]
    have hgd : (dictGet mapping c.subtarget).getD c.subtarget = c.subtarget := by
      cases hf : mapping.find? (fun p => p.1 == c.subtarget) with
      | none => simp [dictGet, hf]
      | some q =>
        have hq1 : q.1 = c.subtarget := by simpa using List.find?_some hf
        have hq2 : q.2 = c.subtarget := by
          rw [← hq1]; exact (hid q (List.mem_of_find?_eq_some hf)).symm
        simp [dictGet, hf, hq2]
    rw [hgd]
  · rw [if_neg h]

theorem rename_id (mapping : List (String × String))
    (hid : ∀ p ∈ mapping, p.1 = p.2) (arm : List EBone) :
    rename_bones_edit_mode_preserve_flags arm mapping = (arm, 0, 0) := by
  unfold rename_bones_edit_mode_preserve_flags
  by_cases hm : mapping = []
  · rw [if_pos hm]
  · rw [if_neg hm]
    have hfil : mapping.filter
        (fun p => decide (p.1 ∈ ebKeys arm) && !(p.2 == "") && !(p.1 == p.2)) = [] := by
      rw [List.filter_eq_nil_iff]
      intro p hp
      simp [hid p hp]
    rw [hfil]
    simp

/-- C8 (confirmed): running the rename/patch pipeline with a mapping in
which every entry maps a name to itself is a no-op — the rename returns
the armature unchanged with both counters 0, vertex groups are unchanged
with a zero renamed count, constraints are value-unchanged, and no
fcurve or driver path changes (both changed counters are 0). -/
theorem c8_identity_mapping_noop (mapping : List (String × String))
    (hid : ∀ p ∈ mapping, p.1 = p.2) (arm : List EBone)
    (meshes : List MeshObj) (pbones : List PoseBone)
    (acts : List Action) (ads : List AnimData) :
    rename_bones_edit_mode_preserve_flags arm mapping = (arm, 0, 0) ∧
    patch_vertex_groups_for_armature meshes mapping = (meshes, 0) ∧
    (patch_constraints_subtargets pbones mapping).1 = pbones ∧
    patch_fcurves_actions mapping acts = (acts, 0) ∧
    patch_driver_fcurves ads mapping = (ads, 0) := by
  have hmapid : ∀ {α : Type} (l : List α) (f : α → α), (∀ a ∈ l, f a = a) →
      l.map f = l := by
    intro α l f hf
    induction l with
    | nil => rfl
    | cons a t ih =>
      rw [List.map_cons, hf a (by simp), ih (fun b hb => hf b (by simp [hb]))]
  have hvg : ∀ gs : List String, gs.map (patchVG mapping) = gs :=
    fun gs => hmapid gs _ (fun g _ => patchVG_id mapping hid g)
  have hfc1 : ∀ fcs : List FCurve,
      fcs.map (fun fc => (patchFCurve mapping fc).1) = fcs :=
    fun fcs => hmapid fcs _ (fun fc _ => by rw [patchFCurve_id mapping hid fc])
  have hfc2 : ∀ fcs : List FCurve,
      fcs.countP (fun fc => (patchFCurve mapping fc).2) = 0 := by
    intro fcs
    rw [List.countP_eq_zero]
    intro fc _
    rw [patchFCurve_id mapping hid fc]
    simp
  refine ⟨rename_id mapping hid arm, ?_, ?_, ?_, ?_⟩
  · unfold patch_vertex_groups_for_armature
    refine Prod.ext ?_ ?_
    · show List.map _ _ = meshes
      refine hmapid meshes _ (fun m _ => ?_)
      by_cases hb : m.bound
      · rw [if_pos hb, hvg]
      · rw [if_neg hb]
    · show List.sum _ = 0
      apply List.sum_eq_zero
      intro x hx
      obtain ⟨m, _, rfl⟩ := List.mem_map.mp hx
      by_cases hb : m.bound
      · rw [if_pos hb, List.countP_eq_zero.mpr]
        intro g _
        rw [patchVG_id mapping hid g]
        simp
      · rw [if_neg hb]
  · unfold patch_constraints_subtargets
    show List.map _ _ = pbones
    refine hmapid pbones _ (fun pb _ => ?_)
    rw [hmapid pb.constraints _ (fun c _ => patchCon_id mapping hid c)]
  · unfold patch_fcurves_actions
    refine Prod.ext ?_ ?_
    · show List.map _ _ = acts
      refine hmapid acts _ (fun a _ => ?_)
      rw [hfc1]
    · show List.sum _ = 0
      apply List.sum_eq_zero
      intro x hx
      obtain ⟨a, _, rfl⟩ := List.mem_map.mp hx
      exact hfc2 a.fcurves
  · have had : ∀ ad : AnimData, patchAnimData mapping ad = (ad, 0) := by
      intro ad
      obtain ⟨ds, act⟩ := ad
      cases act with
      | none =>
        unfold patchAnimData
        simp only [hfc1, hfc2]
      | some a =>
        unfold patchAnimData
        simp only [hfc1, hfc2]
    unfold patch_driver_fcurves
    refine Prod.ext ?_ ?_
    · show List.map _ _ = ads
      exact hmapid ads _ (fun ad _ => by rw [had ad])
    · show List.sum _ = 0
      apply List.sum_eq_zero
      intro x hx
      obtain ⟨ad, _, rfl⟩ := List.mem_map.mp hx
      rw [had ad]

/-- C8, witness: the no-op theorem at a concrete identity mapping and a
small concrete scene. -/
theorem c8_identity_mapping_noop_witness :
    rename_bones_edit_mode_preserve_flags [⟨"Hips", true⟩]
      [("Hips", "Hips"), ("Spine", "Spine")] = ([⟨"Hips", true⟩], 0, 0) ∧
    patch_vertex_groups_for_armature [⟨true, ["Hips"]⟩]
      [("Hips", "Hips"), ("Spine", "Spine")] = ([⟨true, ["Hips"]⟩], 0) ∧
    (patch_constraints_subtargets [⟨"Hips", [⟨"c", true, "Hips", 0, "COPY_ROTATION"⟩]⟩]
      [("Hips", "Hips"), ("Spine", "Spine")]).1 =
      [⟨"Hips", [⟨"c", true, "Hips", 0, "COPY_ROTATION"⟩]⟩] ∧
    patch_fcurves_actions [("Hips", "Hips"), ("Spine", "Spine")]
      [⟨[⟨"pose.bones[\"Hips\"].location"⟩]⟩] =
      ([⟨[⟨"pose.bones[\"Hips\"].location"⟩]⟩], 0) ∧
    patch_driver_fcurves [⟨[⟨"pose.bones[\"Hips\"].location"⟩], none⟩]
      [("Hips", "Hips"), ("Spine", "Spine")] =
      ([⟨[⟨"pose.bones[\"Hips\"].location"⟩], none⟩], 0) :=
  c8_identity_mapping_noop [("Hips", "Hips"), ("Spine", "Spine")]
    (by decide) [⟨"Hips", true⟩] [⟨true, ["Hips"]⟩]
    [⟨"Hips", [⟨"c", true, "Hips", 0, "COPY_ROTATION"⟩]⟩]
    [⟨[⟨"pose.bones[\"Hips\"].location"⟩]⟩]
    [⟨[⟨"pose.bones[\"Hips\"].location"⟩], none⟩]

theorem replaceAux_length_ge (pat rep : List Char)
    (hlr : pat.length ≤ rep.length) :
    ∀ s k, s.length - k ≤ (replaceAux pat rep s k).length := by
  intro s
  induction s with
  | nil => intro k; simp [replaceAux]
  | cons c rest ih =>
    intro k
    cases k with
    | zero =>
      by_cases hp : (!pat.isEmpty && pat.isPrefixOf (c :: rest)) = true
      · simp only [replaceAux]
        rw [if_pos hp]
        have hpe : 1 ≤ pat.length := by
          cases pat with
          | nil => simp at hp
          | cons a t => simp
        have h2 := ih (pat.length - 1)
        simp only [List.length_append, List.length_cons]
        omega
      · simp only [replaceAux]
        rw [if_neg hp]
        have h2 := ih 0
        simp only [List.length_cons]
        omega
    | succ k =>
      simp only [replaceAux]
      have h2 := ih k
      simp only [List.length_cons]
      omega

theorem replaceAux_length_gt (pat rep : List Char) (hpe : pat ≠ [])
    (hlr : pat.length < rep.length) :
    ∀ s, containsL s pat = true → s.length < (replaceAux pat rep s 0).length := by
  intro s
  induction s with
  | nil =>
    intro hc
    rw [containsL] at hc
    cases pat with
    | nil => exact absurd rfl hpe
    | cons a t => simp at hc
  | cons c rest ih =>
    intro hc
    by_cases hp : (!pat.isEmpty && pat.isPrefixOf (c :: rest)) = true
    · have hpre : pat <+: c :: rest := by
        apply List.isPrefixOf_iff_prefix.mp
        have := hp; simp only [Bool.and_eq_true] at this; exact this.2
      have hple : pat.length ≤ rest.length + 1 := by
        have := hpre.length_le; simpa using this
      have hp1 : 1 ≤ pat.length := by
        cases pat with
        | nil => exact absurd rfl hpe
        | cons a t => simp
      simp only [replaceAux]
      rw [if_pos hp]
      have h2 := replaceAux_length_ge pat rep (Nat.le_of_lt hlr) rest (pat.length - 1)
      simp only [List.length_append, List.length_cons]
      omega
    · have hcr : containsL rest pat = true := by
        rw [containsL, Bool.or_eq_true] at hc
        rcases hc with h1 | h1
        · exfalso
          apply hp
          simp only [Bool.and_eq_true]
          refine ⟨?_, h1⟩
          cases pat with
          | nil => exact absurd rfl hpe
          | cons a t => simp
        · exact h1
      simp only [replaceAux]
      rw [if_neg hp]
      have h2 := ih hcr
      simp only [List.length_cons]
      omega

theorem containsL_append_self (pat : List Char) (hpe : pat ≠ []) (x : List Char) :
    containsL (pat ++ x) pat = true := by
  cases pat with
  | nil => exact absurd rfl hpe
  | cons c p' =>
    rw [List.cons_append, containsL, Bool.or_eq_true]
    left
    rw [← List.cons_append]
    exact List.isPrefixOf_iff_prefix.mpr (List.prefix_append _ _)

theorem containsL_replaceAux (pat rep : List Char) (hpe : pat ≠ [])
    (hre : rep ≠ []) :
    ∀ s, containsL s pat = true → containsL (replaceAux pat rep s 0) rep = true := by
  intro s
  induction s with
  | nil =>
    intro hc
    rw [containsL] at hc
    cases pat with
    | nil => exact absurd rfl hpe
    | cons a t => simp at hc
  | cons c rest ih =>
    intro hc
    by_cases hp : (!pat.isEmpty && pat.isPrefixOf (c :: rest)) = true
    · simp only [replaceAux]
      rw [if_pos hp]
      exact containsL_append_self rep hre _
    · have hcr : containsL rest pat = true := by
        rw [containsL, Bool.or_eq_true] at hc
        rcases hc with h1 | h1
        · exfalso
          apply hp
          simp only [Bool.and_eq_true]
          refine ⟨?_, h1⟩
          cases pat with
          | nil => exact absurd rfl hpe
          | cons a t => simp
        · exact h1
      simp only [replaceAux]
      rw [if_neg hp]
      rw [containsL, Bool.or_eq_true]
      right
      exact ih hcr

theorem boneToken_ne_nil (o : String) : (boneToken o).data ≠ [] := by
  simp [boneToken, String.data_append]

theorem pathStep_eq (dp : String) (b : Bool) (o n : String) :
    pathStep (dp, b) (o, n) =
      match replaceBoneInDatapath dp o n with
      | some res => if res ≠ "" ∧ res ≠ dp then (res, true) else (dp, b)
      | none => (dp, b) := rfl

theorem replaceBone_pos (dp o n : String) (hdp : dp ≠ "")
    (hct : containsL dp.data (boneToken o).data = true) :
    replaceBoneInDatapath dp o n =
      some (pyReplace dp (boneToken o) (boneToken n)) := by
  unfold replaceBoneInDatapath
  have hcond : dp ≠ "" ∧ containsL dp.data (boneToken o).data = true := ⟨hdp, hct⟩
  rw [if_pos hcond]

theorem replaceBone_neg (dp o n : String)
    (hct : ¬ containsL dp.data (boneToken o).data = true) :
    replaceBoneInDatapath dp o n = none := by
  unfold replaceBoneInDatapath
  rw [if_neg (fun h => hct h.2)]

theorem patchFCurve_single (o n : String)
    (hlen : (boneToken o).data.length < (boneToken n).data.length) (fc : FCurve) :
    patchFCurve [(o, n)] fc =
      if containsL fc.data_path.data (boneToken o).data = true then
        (⟨pyReplace fc.data_path (boneToken o) (boneToken n)⟩, true)
      else (fc, false) := by
  unfold patchFCurve
  by_cases hdp : fc.data_path = ""
  · rw [if_pos hdp]
    have hc0 : containsL fc.data_path.data (boneToken o).data = false := by
      rw [hdp]
      show containsL [] _ = false
      rw [containsL]
      simpa using boneToken_ne_nil o
    rw [hc0]
    simp
  · rw [if_neg hdp]
    by_cases hct : containsL fc.data_path.data (boneToken o).data = true
    · have hgt : fc.data_path.data.length <
          (pyReplace fc.data_path (boneToken o) (boneToken n)).data.length := by
        unfold pyReplace
        exact replaceAux_length_gt _ _ (boneToken_ne_nil o) hlen _ hct
      have hres1 : pyReplace fc.data_path (boneToken o) (boneToken n) ≠ "" := by
        intro h
        rw [h] at hgt
        simp at hgt
      have hres2 : pyReplace fc.data_path (boneToken o) (boneToken n) ≠
          fc.data_path := by
        intro h
        rw [h] at hgt
        omega
      have h1 : pathApplyMapping [(o, n)] fc.data_path =
          (pyReplace fc.data_path (boneToken o) (boneToken n), true) := by
        unfold pathApplyMapping
        rw [List.foldl_cons, List.foldl_nil, pathStep_eq,
          replaceBone_pos _ _ _ hdp hct]
        have hcond : pyReplace fc.data_path (boneToken o) (boneToken n) ≠ "" ∧
            pyReplace fc.data_path (boneToken o) (boneToken n) ≠ fc.data_path :=
          ⟨hres1, hres2⟩
        exact if_pos hcond
      simp only [h1]
      rw [if_pos hct]
      simp
    · have h1 : pathApplyMapping [(o, n)] fc.data_path = (fc.data_path, false) := by
        unfold pathApplyMapping
        rw [List.foldl_cons, List.foldl_nil, pathStep_eq,
          replaceBone_neg _ _ _ hct]
      simp only [h1]
      rw [if_neg hct]
      simp

theorem patchVG_single (g : String) :
    patchVG [("Hips", "Pelvis")] g = if g = "Hips" then "Pelvis" else g := by
  by_cases h : g = "Hips"
  · subst h
    rfl
  · rw [if_neg h]
    have hb : (("Hips" : String) == g) = false := by
      simp [Ne.symm h]
    simp [patchVG, dictGet, List.find?, hb]

/-- C3 (confirmed): with the single-entry mapping `Hips→Pelvis`,
(1) every fcurve data path is rewritten exactly when it contains the
token `pose.bones["Hips"]`, in which case every occurrence of the token
is replaced (Python `str.replace`) and any path not containing the token
is left byte-for-byte unchanged; (2) every rewritten path contains the
token `pose.bones["Pelvis"]`; and (3) on every mesh bound to the
armature, a vertex group named `Hips` is renamed `Pelvis` while every
other group name (and every unbound mesh) is unchanged. -/
theorem c3_reference_preservation (acts : List Action) (meshes : List MeshObj) :
    (patch_fcurves_actions [("Hips", "Pelvis")] acts).1 =
      acts.map (fun a => ⟨a.fcurves.map (fun fc =>
        if containsL fc.data_path.data (boneToken "Hips").data = true then
          ⟨pyReplace fc.data_path (boneToken "Hips") (boneToken "Pelvis")⟩
        else fc)⟩) ∧
    (∀ dp : String, containsL dp.data (boneToken "Hips").data = true →
      containsL (pyReplace dp (boneToken "Hips") (boneToken "Pelvis")).data
        (boneToken "Pelvis").data = true) ∧
    (patch_vertex_groups_for_armature meshes [("Hips", "Pelvis")]).1 =
      meshes.map (fun m => if m.bound then
        { m with vertex_groups :=
            m.vertex_groups.map (fun g => if g = "Hips" then "Pelvis" else g) }
        else m) := by
  have hlen : (boneToken "Hips").data.length < (boneToken "Pelvis").data.length := by
    decide
  refine ⟨?_, ?_, ?_⟩
  · unfold patch_fcurves_actions
    show List.map _ _ = _
    apply List.map_congr_left
    intro a _
    congr 1
    apply List.map_congr_left
    intro fc _
    rw [patchFCurve_single _ _ hlen fc]
    by_cases hct : containsL fc.data_path.data (boneToken "Hips").data = true
    · rw [if_pos hct, if_pos hct]
    · rw [if_neg hct, if_neg hct]
  · intro dp hc
    unfold pyReplace
    exact containsL_replaceAux _ _ (boneToken_ne_nil "Hips")
      (boneToken_ne_nil "Pelvis") _ hc
  · unfold patch_vertex_groups_for_armature
    show List.map _ _ = _
    apply List.map_congr_left
    intro m _
    by_cases hb : m.bound
    · rw [if_pos hb, if_pos hb]
      congr 1
      apply List.map_congr_left
      intro g _
      exact patchVG_single g
    · rw [if_neg hb, if_neg hb]

/-- C3, witness: the theorem applied to a concrete action (one curve on
`Hips`, one on `Spine`) and a concrete bound mesh with groups `Hips` and
`Spine`. -/
theorem c3_reference_preservation_witness :
    (patch_fcurves_actions [("Hips", "Pelvis")]
      [⟨[⟨"pose.bones[\"Hips\"].location"⟩, ⟨"pose.bones[\"Spine\"].location"⟩]⟩]).1 =
      [⟨[⟨"pose.bones[\"Pelvis\"].location"⟩, ⟨"pose.bones[\"Spine\"].location"⟩]⟩] ∧
    (patch_vertex_groups_for_armature [⟨true, ["Hips", "Spine"]⟩]
      [("Hips", "Pelvis")]).1 = [⟨true, ["Pelvis", "Spine"]⟩] := by
  have h := c3_reference_preservation
    [⟨[⟨"pose.bones[\"Hips\"].location"⟩, ⟨"pose.bones[\"Spine\"].location"⟩]⟩]
    [⟨true, ["Hips", "Spine"]⟩]
  refine ⟨?_, ?_⟩
  · rw [h.1]
    decide
  · rw [h.2.2]
    decide

/-- C9 (confirmed): `patch_fcurves_actions` applies the mapping entries
sequentially to the same working path, so under the swap mapping
`[("A", "B"), ("B", "A")]` a path holding `pose.bones["A"]` is first
rewritten to `pose.bones["B"]` and then straight back to
`pose.bones["A"]`: the stored path ends up byte-for-byte equal to the
original (the curve reference is *not* swapped), yet the curve still
counts as changed (`changed = 1`). -/
theorem c9_swap_mapping_counts_unchanged_curve :
    pathStep ("pose.bones[\"A\"].location", false) ("A", "B") =
      ("pose.bones[\"B\"].location", true) ∧
    pathStep ("pose.bones[\"B\"].location", true) ("B", "A") =
      ("pose.bones[\"A\"].location", true) ∧
    patch_fcurves_actions [("A", "B"), ("B", "A")]
      [⟨[⟨"pose.bones[\"A\"].location"⟩]⟩] =
      ([⟨[⟨"pose.bones[\"A\"].location"⟩]⟩], 1) := by
  refine ⟨by decide, by decide, by decide⟩

theorem map_eq_self {α : Type} (l : List α) (f : α → α)
    (hf : ∀ a ∈ l, f a = a) : l.map f = l := by
  induction l with
  | nil => rfl
  | cons a t ih =>
    rw [List.map_cons, hf a (by simp), ih (fun b hb => hf b (by simp [hb]))]

theorem dict_find?_update_self {β : Type} (m : List (String × β)) (k : String)
    (v : β) (h : ∃ p ∈ m, p.1 = k) :
    (m.map (fun p => if p.1 = k then (k, v) else p)).find? (fun p => p.1 == k) =
      some (k, v) := by
  induction m with
  | nil => obtain ⟨p, hp, _⟩ := h; simp at hp
  | cons p t ih =>
    by_cases hp : p.1 = k
    · simp [List.find?, hp]
    · have h' : ∃ q ∈ t, q.1 = k := by
        obtain ⟨q, hq, hqk⟩ := h
        rcases List.mem_cons.mp hq with rfl | hqt
        · exact absurd hqk hp
        · exact ⟨q, hqt, hqk⟩
      have hb : (p.1 == k) = false := by
        simp [hp]
      simp [List.find?, hp, hb, ih h']

theorem dict_find?_update_other {β : Type} (m : List (String × β))
    (k kq : String) (v : β) (h : kq ≠ k) :
    (m.map (fun p => if p.1 = k then (k, v) else p)).find? (fun p => p.1 == kq) =
      m.find? (fun p => p.1 == kq) := by
  induction m with
  | nil => rfl
  | cons p t ih =>
    by_cases hp : p.1 = k
    · have h1 : ((k : String) == kq) = false := by
        simp [Ne.symm h]
      have h2 : (p.1 == kq) = false := by
        rw [hp]; exact h1
      simp [List.find?, hp, h1, h2, ih]
    · by_cases hq : p.1 = kq
      · have h2 : (p.1 == kq) = true := by simp [hq]
        simp [List.find?, hp, h2]
      · have h2 : (p.1 == kq) = false := by simp [hq]
        simp [List.find?, hp, h2, ih]

theorem dictGet_insert_self {β : Type} (m : List (String × β)) (k : String)
    (v : β) : dictGet (dictInsert m k v) k = some v := by
  unfold dictInsert
  by_cases h : m.any (fun p => p.1 == k) = true
  · rw [if_pos h]
    have hex : ∃ p ∈ m, p.1 = k := by
      obtain ⟨p, hp, hpk⟩ := List.any_eq_true.mp h
      exact ⟨p, hp, by simpa using hpk⟩
    unfold dictGet
    rw [dict_find?_update_self m k v hex]
    rfl
  · rw [if_neg h]
    unfold dictGet
    rw [List.find?_append]
    have hnone : m.find? (fun p => p.1 == k) = none := by
      rw [List.find?_eq_none]
      intro p hp
      intro hc
      exact h (List.any_eq_true.mpr ⟨p, hp, hc⟩)
    rw [hnone]
    simp [List.find?]

theorem dictGet_insert_other {β : Type} (m : List (String × β)) (k kq : String)
    (v : β) (h : kq ≠ k) : dictGet (dictInsert m k v) kq = dictGet m kq := by
  unfold dictInsert
  by_cases hm : m.any (fun p => p.1 == k) = true
  · rw [if_pos hm]
    unfold dictGet
    rw [dict_find?_update_other m k kq v h]
  · rw [if_neg hm]
    unfold dictGet
    rw [List.find?_append]
    have hb : ((k : String) == kq) = false := by simp [Ne.symm h]
    have h1 : ([(k, v)] : List (String × β)).find? (fun p => p.1 == kq) = none := by
      simp [List.find?, hb]
    rw [h1, Option.or_none]

theorem dictInsert_keys_nodup {β : Type} (m : List (String × β)) (k : String)
    (v : β) (h : (m.map Prod.fst).Nodup) :
    ((dictInsert m k v).map Prod.fst).Nodup := by
  unfold dictInsert
  by_cases hm : m.any (fun p => p.1 == k) = true
  · rw [if_pos hm]
    have : (m.map (fun p => if p.1 = k then (k, v) else p)).map Prod.fst =
        m.map Prod.fst := by
      rw [List.map_map]
      apply List.map_congr_left
      intro p _
      by_cases hp : p.1 = k
      · simp [hp]
      · simp [hp]
    rw [this]
    exact h
  · rw [if_neg hm]
    rw [List.map_append]
    rw [List.nodup_append]
    refine ⟨h, by simp, ?_⟩
    intro x hx hx1
    obtain ⟨p, hp, rfl⟩ := List.mem_map.mp hx
    have hxk : p.1 = k := by simpa using hx1
    exact hm (List.any_eq_true.mpr ⟨p, hp, by simpa using hxk⟩)

theorem dictGet_append {β : Type} (P Q : List (String × β)) (x : String) :
    dictGet (P ++ Q) x = (dictGet P x).or (dictGet Q x) := by
  unfold dictGet
  rw [List.find?_append]
  cases P.find? (fun p => p.1 == x) with
  | none => rfl
  | some q => rfl

theorem save_fold_split (rows : List BoneMapRow) :
    ∀ acc m, rows.foldl saveStep (acc, m) =
      (acc ++ rows.map updateCapRow, rows.foldl saveMappingStep m) := by
  induction rows with
  | nil => intro acc m; simp
  | cons it t ih =>
    intro acc m
    rw [List.foldl_cons, List.foldl_cons]
    by_cases h : it.original_name ≠ "" ∧ it.target_name ≠ ""
    · rw [show saveStep (acc, m) it =
          (acc ++ [updateCapRow it], saveMappingStep m it) by
        unfold saveStep updateCapRow saveMappingStep
        rw [if_pos h, if_pos h, if_pos h]]
      rw [ih]
      simp
    · rw [show saveStep (acc, m) it =
          (acc ++ [updateCapRow it], saveMappingStep m it) by
        unfold saveStep updateCapRow saveMappingStep
        rw [if_neg h, if_neg h, if_neg h]]
      rw [ih]
      simp

theorem saveMapping_keys_nodup (rows : List BoneMapRow) :
    ∀ m : List (String × String), (m.map Prod.fst).Nodup →
      ((rows.foldl saveMappingStep m).map Prod.fst).Nodup := by
  induction rows with
  | nil => intro m hm; exact hm
  | cons it t ih =>
    intro m hm
    rw [List.foldl_cons]
    apply ih
    unfold saveMappingStep
    by_cases h : it.original_name ≠ "" ∧ it.target_name ≠ ""
    · rw [if_pos h]
      exact dictInsert_keys_nodup m _ _ hm
    · rw [if_neg h]
      exact hm

theorem lastElig_foldl_acc (k : String) (t : List BoneMapRow) :
    ∀ acc : Option String,
      t.foldl (lastEligStep k) acc = (t.foldl (lastEligStep k) none).or acc := by
  induction t with
  | nil => intro acc; simp
  | cons it t ih =>
    intro acc
    rw [List.foldl_cons, List.foldl_cons]
    by_cases h : it.original_name ≠ "" ∧ it.target_name ≠ "" ∧ it.original_name = k
    · rw [show lastEligStep k acc it = some it.target_name from by
        unfold lastEligStep; rw [if_pos h]]
      rw [show lastEligStep k none it = some it.target_name from by
        unfold lastEligStep; rw [if_pos h]]
      rw [ih (some it.target_name)]
      cases List.foldl (lastEligStep k) none t <;> simp
    · rw [show lastEligStep k acc it = acc from by
        unfold lastEligStep; rw [if_neg h]]
      rw [show lastEligStep k none it = none from by
        unfold lastEligStep; rw [if_neg h]]
      exact ih acc

theorem saveMapping_lookup (rows : List BoneMapRow) (k : String) :
    ∀ m : List (String × String),
      dictGet (rows.foldl saveMappingStep m) k =
        (lastEligTarget rows k).or (dictGet m k) := by
  induction rows with
  | nil =>
    intro m
    simp [lastEligTarget]
  | cons it t ih =>
    intro m
    rw [List.foldl_cons]
    rw [ih (saveMappingStep m it)]
    unfold lastEligTarget
    rw [List.foldl_cons, lastElig_foldl_acc k t (lastEligStep k none it),
      Option.or_assoc]
    congr 1
    unfold saveMappingStep lastEligStep
    by_cases h : it.original_name ≠ "" ∧ it.target_name ≠ ""
    · rw [if_pos h]
      by_cases hk : it.original_name = k
      · rw [if_pos ⟨h.1, h.2, hk⟩, ← hk]
        rw [dictGet_insert_self]
        rfl
      · rw [if_neg (fun hc => hk hc.2.2)]
        rw [dictGet_insert_other m _ k _ (Ne.symm hk)]
        rfl
    · rw [if_neg h, if_neg (fun hc => h ⟨hc.1, hc.2.1⟩)]
      rfl

/-- C10 (confirmed): saving the table mutates it as a side effect — every
row with non-empty original and target has its capture snapshot
`cap_src`/`cap_tgt` overwritten with `(original_name, target_name)`
(other rows and other fields untouched) — and the dict being serialized
holds each original name at most once (`mapping_to_txt` then emits one
line per entry), with the value for a duplicated original being the
`target_name` of the *last* eligible row carrying it. -/
theorem c10_save_mutates_rows_and_dedups (rows : List BoneMapRow) (k : String) :
    (bone_map_save_execute rows).1 = rows.map updateCapRow ∧
    (((bone_map_save_execute rows).2).map Prod.fst).Nodup ∧
    dictGet (bone_map_save_execute rows).2 k = lastEligTarget rows k := by
  unfold bone_map_save_execute
  rw [save_fold_split rows [] []]
  refine ⟨by simp, ?_, ?_⟩
  · exact saveMapping_keys_nodup rows [] (by simp)
  · rw [saveMapping_lookup rows k []]
    simp [dictGet, List.find?]

/-- C7 (confirmed): when no file is chosen, or when reading the mapping
file fails (the embedded parse itself is total and cannot raise), Load
cancels and the whole in-memory state — rows, `mapping_path`, and
`active_index` — is returned untouched. -/
theorem c7_load_failure_leaves_table_untouched (st : LoadState) (path : String)
    (e : String) (arm : Option (List String)) :
    bone_map_load_execute st path (.error e) arm = (.cancelled, st) := by
  unfold bone_map_load_execute
  by_cases h : path = ""
  · rw [if_pos h]
  · rw [if_neg h]

theorem modifyAt_split {α : Type} (l₁ : List α) (r : α) (l₂ : List α)
    (f : α → α) : modifyAt (l₁ ++ r :: l₂) l₁.length f = l₁ ++ f r :: l₂ := by
  induction l₁ with
  | nil => rfl
  | cons x xs ih => simp [modifyAt, ih]

theorem findRowIdxAux_none (o : String) :
    ∀ rows : List BoneMapRow, o ∉ rows.map (fun r => r.original_name) →
      ∀ j, findRowIdxAux o rows j = none := by
  intro rows
  induction rows with
  | nil => intro _ j; rfl
  | cons r rs ih =>
    intro h j
    rw [List.map_cons, List.mem_cons] at h
    push_neg at h
    unfold findRowIdxAux
    rw [if_neg (fun hc => h.1 hc.symm)]
    exact ih h.2 (j + 1)

theorem findRowIdxAux_isSome (o : String) :
    ∀ rows : List BoneMapRow, o ∈ rows.map (fun r => r.original_name) →
      ∀ j, (findRowIdxAux o rows j).isSome = true := by
  intro rows
  induction rows with
  | nil => intro h; simp at h
  | cons r rs ih =>
    intro h j
    unfold findRowIdxAux
    by_cases hr : r.original_name = o
    · rw [if_pos hr]; rfl
    · rw [if_neg hr]
      apply ih _ (j + 1)
      rw [List.map_cons, List.mem_cons] at h
      rcases h with h1 | h2
      · exact absurd h1.symm hr
      · exact h2

theorem findRowIdxAux_spec (o : String) :
    ∀ (rows : List BoneMapRow) (j i : Nat), findRowIdxAux o rows j = some i →
      ∃ l₁ r l₂, rows = l₁ ++ r :: l₂ ∧ r.original_name = o ∧
        i = j + l₁.length ∧ ∀ x ∈ l₁, x.original_name ≠ o := by
  intro rows
  induction rows with
  | nil => intro j i h; simp [findRowIdxAux] at h
  | cons r rs ih =>
    intro j i h
    unfold findRowIdxAux at h
    by_cases hr : r.original_name = o
    · rw [if_pos hr] at h
      refine ⟨[], r, rs, by simp, hr, ?_, by simp⟩
      have : j = i := by simpa using h
      simp [this]
    · rw [if_neg hr] at h
      obtain ⟨l₁, r', l₂, hsplit, ho, hi, hno⟩ := ih (j + 1) i h
      refine ⟨r :: l₁, r', l₂, by rw [hsplit]; rfl, ho, ?_, ?_⟩
      · simp only [List.length_cons]
        omega
      · intro x hx
        rcases List.mem_cons.mp hx with rfl | hxl
        · exact hr
        · exact hno x hxl

theorem buildIndexAux_lookup (o : String) :
    ∀ (rows : List BoneMapRow) (j : Nat) (d : List (String × Nat)),
      (rows.map (fun r => r.original_name)).Nodup →
      dictGet (buildIndexAux j d rows) o =
        (findRowIdxAux o rows j).or (dictGet d o) := by
  intro rows
  induction rows with
  | nil => intro j d _; simp [buildIndexAux, findRowIdxAux]
  | cons r rs ih =>
    intro j d hnd
    have hnd2 : r.original_name ∉ rs.map (fun x => x.original_name) ∧
        (rs.map (fun x => x.original_name)).Nodup := by
      rw [List.map_cons, List.nodup_cons] at hnd
      exact hnd
    rw [show buildIndexAux j d (r :: rs) =
        buildIndexAux (j + 1) (dictInsert d r.original_name j) rs from rfl]
    rw [ih (j + 1) _ hnd2.2]
    rw [show findRowIdxAux o (r :: rs) j =
        (if r.original_name = o then some j else findRowIdxAux o rs (j + 1))
      from rfl]
    by_cases hr : r.original_name = o
    · rw [if_pos hr]
      have hnone : findRowIdxAux o rs (j + 1) = none := by
        apply findRowIdxAux_none
        rw [← hr]
        exact hnd2.1
      rw [hnone]
      rw [show dictGet (dictInsert d r.original_name j) o = some j from by
        rw [hr]; exact dictGet_insert_self d o j]
      rfl
    · rw [if_neg hr]
      rw [dictGet_insert_other d _ o j (fun hc => hr hc.symm)]

theorem dictGet_eq_none_of_not_mem {β : Type} (m : List (String × β))
    (k : String) (h : k ∉ m.map Prod.fst) : dictGet m k = none := by
  unfold dictGet
  rw [List.find?_eq_none.mpr]
  · rfl
  · intro p hp hc
    exact h (List.mem_map.mpr ⟨p, hp, by simpa using hc⟩)

theorem dictGet_singleton_self {β : Type} (p : String × β) :
    dictGet [p] p.1 = some p.2 := by
  simp [dictGet, List.find?]

theorem updateBy_append_ne (M : List (String × String)) (p : String × String)
    (x : BoneMapRow) (h : x.original_name ≠ p.1) :
    updateBy (M ++ [p]) x = updateBy M x := by
  unfold updateBy
  rw [dictGet_append]
  have h1 : dictGet [p] x.original_name = none := by
    have hb : (p.1 == x.original_name) = false := by
      simp [Ne.symm h]
    simp [dictGet, List.find?, hb]
  rw [h1, Option.or_none]

theorem merge_fold_eq (rows : List BoneMapRow)
    (hnd : (rows.map (fun r => r.original_name)).Nodup) :
    ∀ M : List (String × String), (M.map Prod.fst).Nodup →
      M.foldl (mergeStep (buildIndex rows)) rows =
        rows.map (updateBy M) ++
          (M.filter (fun p =>
            !(rows.any (fun r => r.original_name == p.1)))).map newRow := by
  intro M
  induction M using List.reverseRecOn with
  | nil =>
    intro _
    simp only [List.foldl_nil, List.filter_nil, List.map_nil, List.append_nil]
    rw [map_eq_self]
    intro r _
    unfold updateBy
    rfl
  | append_singleton M p ih =>
    intro hM
    have hMnd : (M.map Prod.fst).Nodup ∧ p.1 ∉ M.map Prod.fst := by
      rw [List.map_append, List.nodup_append] at hM
      refine ⟨hM.1, fun hc => hM.2.2 hc (by simp)⟩
    rw [List.foldl_concat, ih hMnd.1]
    by_cases hex : p.1 ∈ rows.map (fun r => r.original_name)
    · have hsome := findRowIdxAux_isSome p.1 rows hex 0
      obtain ⟨i, hi⟩ := Option.isSome_iff_exists.mp hsome
      have hbi : dictGet (buildIndex rows) p.1 = some i := by
        unfold buildIndex
        rw [buildIndexAux_lookup p.1 rows 0 [] hnd, hi]
        rfl
      obtain ⟨l₁, r, l₂, hsplit, hro, hieq, hl1⟩ :=
        findRowIdxAux_spec p.1 rows 0 i hi
      have hieq2 : i = l₁.length := by omega
      have hl2 : ∀ x ∈ l₂, x.original_name ≠ p.1 := by
        intro x hx hc
        have hmid : (rows.map (fun q => q.original_name)).Nodup := hnd
        rw [hsplit, List.map_append, List.map_cons, List.nodup_middle,
          List.nodup_cons] at hmid
        exact hmid.1 (by
          rw [hro]
          apply List.mem_append.mpr
          right
          exact List.mem_map.mpr ⟨x, hx, hc⟩)
      rw [show mergeStep (buildIndex rows)
          (rows.map (updateBy M) ++
            (M.filter (fun q =>
              !(rows.any (fun x => x.original_name == q.1)))).map newRow) p =
          modifyAt (rows.map (updateBy M) ++
            (M.filter (fun q =>
              !(rows.any (fun x => x.original_name == q.1)))).map newRow) i
            (fun it =>
              { it with target_name := if p.2 = "" then p.1 else p.2,
                        cap_src := p.1,
                        cap_tgt := if p.2 = "" then p.1 else p.2 }) from by
        unfold mergeStep
        rw [hbi]]
      have hany : rows.any (fun x => x.original_name == p.1) = true := by
        rw [List.any_eq_true]
        obtain ⟨x, hx, hxo⟩ := List.mem_map.mp hex
        exact ⟨x, hx, by simpa using hxo⟩
      have hfilter : (M ++ [p]).filter (fun q =>
          !(rows.any (fun x => x.original_name == q.1))) =
          M.filter (fun q => !(rows.any (fun x => x.original_name == q.1))) := by
        rw [List.filter_append]
        rw [show ([p].filter (fun q =>
            !(rows.any (fun x => x.original_name == q.1)))) = [] from by
          simp [List.filter, hany]]
        rw [List.append_nil]
      rw [hfilter]
      have hmapsplit : rows.map (updateBy M) =
          l₁.map (updateBy M) ++ updateBy M r :: l₂.map (updateBy M) := by
        rw [hsplit]; simp
      have hmapsplit2 : rows.map (updateBy (M ++ [p])) =
          l₁.map (updateBy (M ++ [p])) ++
            updateBy (M ++ [p]) r :: l₂.map (updateBy (M ++ [p])) := by
        rw [hsplit]; simp
      rw [hmapsplit, hmapsplit2]
      rw [List.append_assoc, List.cons_append]
      have hlen : i = (l₁.map (updateBy M)).length := by
        simp [hieq2]
      rw [hlen, modifyAt_split]
      have e1 : l₁.map (updateBy M) = l₁.map (updateBy (M ++ [p])) := by
        apply List.map_congr_left
        intro x hx
        exact (updateBy_append_ne M p x (hl1 x hx)).symm
      have e2 : l₂.map (updateBy M) = l₂.map (updateBy (M ++ [p])) := by
        apply List.map_congr_left
        intro x hx
        exact (updateBy_append_ne M p x (hl2 x hx)).symm
      have e3 : updateBy (M ++ [p]) r =
          { updateBy M r with
              target_name := if p.2 = "" then p.1 else p.2,
              cap_src := p.1,
              cap_tgt := if p.2 = "" then p.1 else p.2 } := by
        have hMr : dictGet M r.original_name = none := by
          apply dictGet_eq_none_of_not_mem
          rw [hro]
          exact hMnd.2
        have hMr2 : dictGet (M ++ [p]) r.original_name = some p.2 := by
          rw [dictGet_append, hMr]
          rw [show dictGet [p] r.original_name = some p.2 from by
            rw [hro]; exact dictGet_singleton_self p]
          rfl
        unfold updateBy
        rw [hMr, hMr2]
        simp [hro]
      rw [← e1, ← e2, e3]
      simp [List.append_assoc]
    · have hnone : findRowIdxAux p.1 rows 0 = none :=
        findRowIdxAux_none p.1 rows hex 0
      have hbi : dictGet (buildIndex rows) p.1 = none := by
        unfold buildIndex
        rw [buildIndexAux_lookup p.1 rows 0 [] hnd, hnone]
        rfl
      rw [show mergeStep (buildIndex rows)
          (rows.map (updateBy M) ++
            (M.filter (fun q =>
              !(rows.any (fun x => x.original_name == q.1)))).map newRow) p =
          (rows.map (updateBy M) ++
            (M.filter (fun q =>
              !(rows.any (fun x => x.original_name == q.1)))).map newRow) ++
            [newRow p] from by
        unfold mergeStep
        rw [hbi]]
      have hany : rows.any (fun x => x.original_name == p.1) = false := by
        rw [← Bool.not_eq_true, List.any_eq_true]
        rintro ⟨x, hx, hxb⟩
        exact hex (List.mem_map.mpr ⟨x, hx, by simpa using hxb⟩)
      have hfilter : (M ++ [p]).filter (fun q =>
          !(rows.any (fun x => x.original_name == q.1))) =
          M.filter (fun q => !(rows.any (fun x => x.original_name == q.1))) ++
            [p] := by
        rw [List.filter_append]
        congr 1
        simp [List.filter, hany]
      rw [hfilter]
      have e : rows.map (updateBy (M ++ [p])) = rows.map (updateBy M) := by
        apply List.map_congr_left
        intro x hx
        apply updateBy_append_ne
        intro hc
        exact hex (List.mem_map.mpr ⟨x, hx, hc⟩)
      rw [e, List.map_append, ← List.append_assoc]
      rfl

theorem parseStep_keys_nodup (m : List (String × String)) (raw : List Char)
    (h : (m.map Prod.fst).Nodup) : ((parseStep m raw).map Prod.fst).Nodup := by
  unfold parseStep
  dsimp only
  split_ifs with h1 h2 h3 h4
  · exact h
  · exact h
  · exact h
  · exact dictInsert_keys_nodup m _ _ h
  · exact h

theorem parse_mapping_keys_nodup (text : String) :
    ((parse_mapping_txt text).map Prod.fst).Nodup := by
  unfold parse_mapping_txt
  have hgen : ∀ (lines : List (List Char)) (m : List (String × String)),
      (m.map Prod.fst).Nodup → ((lines.foldl parseStep m).map Prod.fst).Nodup := by
    intro lines
    induction lines with
    | nil => intro m hm; exact hm
    | cons l ls ih =>
      intro m hm
      rw [List.foldl_cons]
      exact ih _ (parseStep_keys_nodup m l hm)
  exact hgen _ [] (by simp)

/-- C5 (confirmed): a successful Load merges the parsed file into the
table non-destructively: each row whose `original_name` appears in the
file is updated *in place* (its `target_name` and capture snapshot are
rewritten, its `original_name`, `current_name`, and `mark` are untouched,
and no duplicate row appears and no row is deleted — the result is
exactly the old rows, positionally mapped, followed by one appended row
per entry with a fresh original); afterwards Current is back-filled from
the reference armature — original name first, then target name — only
for rows whose Current is blank, never touching a populated Current.
Hypothesis: the table's originals are distinct (the spec's own lookup
invariant). -/
theorem c5_merge_load_nondestructive (st : LoadState) (path text : String)
    (armNames : List String) (hpath : path ≠ "")
    (hnd : (st.rows.map (fun r => r.original_name)).Nodup) :
    (bone_map_load_execute st path (.ok text) (some armNames) =
      (.finished,
        { rows := prefill_current (some armNames)
            (st.rows.map (updateBy (parse_mapping_txt text)) ++
              ((parse_mapping_txt text).filter (fun p =>
                !(st.rows.any (fun r => r.original_name == p.1)))).map newRow),
          mapping_path := ensure_ext_txt path,
          active_index := clampIndex
            (st.rows.length +
              ((parse_mapping_txt text).filter (fun p =>
                !(st.rows.any (fun r => r.original_name == p.1)))).length)
            st.active_index })) ∧
    (∀ it : BoneMapRow,
      (updateBy (parse_mapping_txt text) it).original_name = it.original_name ∧
      (updateBy (parse_mapping_txt text) it).current_name = it.current_name ∧
      (updateBy (parse_mapping_txt text) it).mark = it.mark) ∧
    (∀ it : BoneMapRow, it.current_name ≠ "" → prefillRow armNames it = it) := by
  refine ⟨?_, ?_, ?_⟩
  · have hrun : bone_map_load_execute st path (.ok text) (some armNames) =
        (.finished,
          { rows := prefill_current (some armNames)
              ((parse_mapping_txt text).foldl (mergeStep (buildIndex st.rows))
                st.rows),
            mapping_path := ensure_ext_txt path,
            active_index := clampIndex
              ((parse_mapping_txt text).foldl (mergeStep (buildIndex st.rows))
                st.rows).length st.active_index }) := by
      unfold bone_map_load_execute
      rw [if_neg hpath]
    rw [hrun,
      merge_fold_eq st.rows hnd (parse_mapping_txt text)
        (parse_mapping_keys_nodup text)]
    simp [List.length_append]
  · intro it
    unfold updateBy
    cases dictGet (parse_mapping_txt text) it.original_name <;> simp
  · intro it hcur
    unfold prefillRow
    rw [if_pos hcur]

/-- C5, witness: the theorem at a concrete table (one row `a`, Current
populated) and file text `a=z\nb=w`: row `a` is updated in place keeping
its Current and mark, row `b` is appended with Current back-filled from
the armature (its target `w` exists there). -/
theorem c5_merge_load_witness :
    bone_map_load_execute ⟨[⟨"a", "cur", "x", "", "", true⟩], "p", 5⟩ "f.txt"
      (.ok "a=z\nb=w\n") (some ["a", "w"]) =
      (.finished, ⟨[⟨"a", "cur", "z", "a", "z", true⟩,
        ⟨"b", "w", "w", "b", "w", false⟩], "f.txt", 1⟩) := by
  have h := (c5_merge_load_nondestructive ⟨[⟨"a", "cur", "x", "", "", true⟩], "p", 5⟩
    "f.txt" "a=z\nb=w\n" ["a", "w"] (by decide) (by decide)).1
  rw [h]
  decide

theorem armNames_map_preserve (arm : List PoseBone) (f : PoseBone → PoseBone)
    (hf : ∀ pb, (f pb).name = pb.name) : armNames (arm.map f) = armNames arm := by
  unfold armNames
  rw [List.map_map]
  apply List.map_congr_left
  intro pb _
  exact hf pb

theorem isReserved_mkFollowCon (mode : FollowMode) (a : Nat) (s : String) :
    isReserved (mkFollowCon mode a s) = true := by
  cases mode
  · show conPrefix.data.isPrefixOf (conPrefix ++ "_ROT").data = true
    rw [String.data_append]
    exact List.isPrefixOf_iff_prefix.mpr (List.prefix_append _ _)
  · show conPrefix.data.isPrefixOf (conPrefix ++ "_XFORM").data = true
    rw [String.data_append]
    exact List.isPrefixOf_iff_prefix.mpr (List.prefix_append _ _)

theorem countP_reserved_filter (l : List Con) :
    (l.filter (fun c => !(isReserved c))).countP isReserved = 0 := by
  rw [List.countP_eq_zero]
  intro c hc
  have := List.of_mem_filter hc
  simp at this
  simp [this]

theorem filter_not_reserved_append_follow (l : List Con) (mode : FollowMode)
    (a : Nat) (s : String) (hc : l.countP isReserved = 0) :
    ((l ++ [mkFollowCon mode a s]).filter (fun c => !(isReserved c))) = l := by
  rw [List.filter_append]
  rw [List.filter_eq_self.mpr]
  · rw [show ([mkFollowCon mode a s].filter (fun c => !(isReserved c))) = [] from by
      simp [List.filter, isReserved_mkFollowCon]]
    rw [List.append_nil]
  · intro c hcl
    have := List.countP_eq_zero.mp hc c hcl
    simp at this
    simp [this]

theorem lastSrcFor_concat (namesA namesB : List String)
    (rows : List BoneMapRow) (it : BoneMapRow) (b : String) :
    lastSrcFor namesA namesB (rows ++ [it]) b =
      if it.original_name ≠ "" ∧ it.target_name ≠ "" ∧
          bone_exists namesA it.original_name = true ∧
          bone_exists namesB it.target_name = true ∧ it.target_name = b
      then some it.original_name else lastSrcFor namesA namesB rows b := by
  unfold lastSrcFor
  rw [List.foldl_concat]

theorem withFollow_name (mode : FollowMode) (namesA namesB : List String)
    (rows : List BoneMapRow) (pb : PoseBone) :
    (withFollow mode namesA namesB rows pb).name = pb.name := rfl

theorem add_follow_a2b_spec (props : FollowProps) (armA armB : List PoseBone)
    (hclean : ∀ pb ∈ armB, pb.constraints.countP isReserved = 0) :
    add_follow_constraints props armA armB .a2b =
      (armA,
       armB.map (withFollow props.follow_mode (armNames armA) (armNames armB)
         props.rows),
       (eligRowsA2B props.rows (armNames armA) (armNames armB)).length) := by
  unfold add_follow_constraints
  obtain ⟨rows, mode, fa, fb⟩ := props
  show List.foldl _ (armA, armB, 0) rows = _
  induction rows using List.reverseRecOn with
  | nil =>
    simp only [List.foldl_nil, eligRowsA2B, List.filter_nil, List.length_nil]
    refine Prod.ext rfl (Prod.ext ?_ rfl)
    show armB = _
    refine (map_eq_self armB _ ?_).symm
    intro pb _
    unfold withFollow
    rw [show lastSrcFor (armNames armA) (armNames armB) [] pb.name = none from rfl]
    show ({ pb with constraints := pb.constraints ++ [] } : PoseBone) = pb
    simp
  | append_singleton rows it ih =>
    rw [List.foldl_concat, ih]
    by_cases h1 : it.original_name = "" ∨ it.target_name = ""
    · rw [if_pos h1]
      have hsame : ∀ b, lastSrcFor (armNames armA) (armNames armB)
          (rows ++ [it]) b = lastSrcFor (armNames armA) (armNames armB) rows b := by
        intro b
        rw [lastSrcFor_concat]
        rw [if_neg]
        rintro ⟨hn1, hn2, _⟩
        rcases h1 with h1 | h1
        · exact hn1 h1
        · exact hn2 h1
      have hfil : eligRowsA2B (rows ++ [it]) (armNames armA) (armNames armB) =
          eligRowsA2B rows (armNames armA) (armNames armB) := by
        unfold eligRowsA2B
        rw [List.filter_append]
        rw [show (List.filter _ [it] : List BoneMapRow) = [] from by
          rcases h1 with h1 | h1 <;> simp [List.filter, h1, bone_exists]]
        rw [List.append_nil]
      rw [hfil]
      refine Prod.ext rfl (Prod.ext ?_ rfl)
      show List.map _ armB = List.map _ armB
      apply List.map_congr_left
      intro pb _
      unfold withFollow
      rw [hsame pb.name]
    · rw [if_neg h1]
      push_neg at h1
      have hnamesB : armNames (armB.map (withFollow mode (armNames armA)
          (armNames armB) rows)) = armNames armB :=
        armNames_map_preserve armB _ (fun pb => rfl)
      by_cases h2 : bone_exists (armNames armA) it.original_name = true ∧
          bone_exists (armNames armB) it.target_name = true
      · rw [if_pos (by rw [hnamesB]; simp [h2.1, h2.2])]
        have hfil : eligRowsA2B (rows ++ [it]) (armNames armA) (armNames armB) =
            eligRowsA2B rows (armNames armA) (armNames armB) ++ [it] := by
          unfold eligRowsA2B
          rw [List.filter_append]
          congr 1
          have hb1 : (it.original_name == "") = false := by simp [h1.1]
          have hb2 : (it.target_name == "") = false := by simp [h1.2]
          simp [List.filter, hb1, hb2, h2.1, h2.2]
        rw [hfil]
        refine Prod.ext rfl (Prod.ext ?_ (by simp))
        show addFollowOnBone mode 0 it.original_name _ it.target_name = _
        unfold addFollowOnBone
        rw [List.map_map]
        apply List.map_congr_left
        intro pb _
        show (if (withFollow mode (armNames armA) (armNames armB) rows pb).name =
            it.target_name then _ else _) = _
        rw [withFollow_name]
        by_cases hb : pb.name = it.target_name
        · rw [if_pos hb]
          unfold withFollow
          rw [lastSrcFor_concat,
            if_pos ⟨h1.1, h1.2, h2.1, h2.2, hb.symm⟩]
          have hflt : ((pb.constraints ++
              followConsFor mode
                (lastSrcFor (armNames armA) (armNames armB) rows pb.name)).filter
                (fun c => !(isReserved c))) = pb.constraints := by
            cases hls : lastSrcFor (armNames armA) (armNames armB) rows pb.name with
            | none =>
              show ((pb.constraints ++ []).filter (fun c => !(isReserved c))) = _
              rw [List.append_nil]
              apply List.filter_eq_self.mpr
              intro c hcl
              have hz := List.countP_eq_zero.mp (hclean pb (by assumption)) c hcl
              simp at hz
              simp [hz]
            | some s =>
              exact filter_not_reserved_append_follow pb.constraints mode 0 s
                (hclean pb (by assumption))
          show ({ pb with constraints :=
              ((pb.constraints ++
                followConsFor mode
                  (lastSrcFor (armNames armA) (armNames armB) rows pb.name)).filter
                  (fun c => !(isReserved c))) ++
                [mkFollowCon mode 0 it.original_name] } : PoseBone) = _
          rw [hflt]
          rfl
        · rw [if_neg hb]
          unfold withFollow
          rw [lastSrcFor_concat, if_neg (fun hc => hb hc.2.2.2.2.symm)]
      · rw [if_neg (by
          rw [hnamesB]
          intro hc
          rw [Bool.and_eq_true] at hc
          exact h2 ⟨hc.1, hc.2⟩)]
        have hsame : ∀ b, lastSrcFor (armNames armA) (armNames armB)
            (rows ++ [it]) b = lastSrcFor (armNames armA) (armNames armB) rows b := by
          intro b
          rw [lastSrcFor_concat, if_neg]
          rintro ⟨_, _, he1, he2, _⟩
          exact h2 ⟨he1, he2⟩
        have hfil : eligRowsA2B (rows ++ [it]) (armNames armA) (armNames armB) =
            eligRowsA2B rows (armNames armA) (armNames armB) := by
          unfold eligRowsA2B
          rw [List.filter_append]
          rw [show (List.filter _ [it] : List BoneMapRow) = [] from by
            rw [List.filter]
            split
            · rename_i hc
              simp only [Bool.and_eq_true] at hc
              exact absurd ⟨hc.1.2, hc.2⟩ h2
            · rfl]
          rw [List.append_nil]
        rw [hfil]
        refine Prod.ext rfl (Prod.ext ?_ rfl)
        show List.map _ armB = List.map _ armB
        apply List.map_congr_left
        intro pb _
        unfold withFollow
        rw [hsame pb.name]

/-- C6, counterexample to the claim as stated: with Target→Source active
and two rows both eligible (`s1→t`, `s2→t`, all four bones exist),
enabling Source→Target reports 2 added constraints yet installs only
*one* reserved-prefix constraint in total (the second row's per-bone
cleanup removes the first row's constraint), so the installed set is not
"one reserved-prefix constraint per eligible mapping row". -/
theorem c6_per_row_counterexample :
    ((toggle_follow_a2b ⟨[⟨"s1", "", "t", "", "", false⟩,
        ⟨"s2", "", "t", "", "", false⟩], .rot, false, true⟩
      [⟨"s1", []⟩, ⟨"s2", []⟩] [⟨"t", []⟩]).2.2.2 = 2) ∧
    ((eligRowsA2B [⟨"s1", "", "t", "", "", false⟩, ⟨"s2", "", "t", "", "", false⟩]
        ["s1", "s2"] ["t"]).length = 2) ∧
    (List.sum (List.map (fun pb => pb.constraints.countP isReserved)
      (toggle_follow_a2b ⟨[⟨"s1", "", "t", "", "", false⟩,
          ⟨"s2", "", "t", "", "", false⟩], .rot, false, true⟩
        [⟨"s1", []⟩, ⟨"s2", []⟩] [⟨"t", []⟩]).2.2.1) = 1) := by
  refine ⟨by decide, by decide, by decide⟩

/-- C6 (amended): enabling Source→Target follow while it is off (in
particular while Target→Source is active) flips the flags so exactly one
direction is on, removes every reserved-prefix constraint from both
armatures, and installs on each destination bone of the Target armature
exactly the constraint of the *last* eligible row targeting it (one
constraint per distinct eligible destination bone, not per row) — every
reserved-prefix constraint that remains anywhere copies *from* the
Source armature (object 0), so zero Target→Source constraints remain;
the reported count is the number of eligible rows. -/
theorem c6_follow_exclusivity_amended (props : FollowProps)
    (armA armB : List PoseBone)
    (_hb2a : props.live_follow_b2a = true)
    (ha2b : props.live_follow_a2b = false) :
    (toggle_follow_a2b props armA armB =
      ({ props with live_follow_a2b := true, live_follow_b2a := false },
       armA.map removeReserved,
       (armB.map removeReserved).map
         (withFollow props.follow_mode (armNames armA) (armNames armB) props.rows),
       (eligRowsA2B props.rows (armNames armA) (armNames armB)).length)) ∧
    (∀ pb ∈ armA.map removeReserved, pb.constraints.countP isReserved = 0) ∧
    (∀ pb ∈ (armB.map removeReserved).map
        (withFollow props.follow_mode (armNames armA) (armNames armB) props.rows),
      ∀ c ∈ pb.constraints, isReserved c = true →
        c.target = 0 ∧ ∃ src, c = mkFollowCon props.follow_mode 0 src) := by
  have hcleanB : ∀ pb ∈ armB.map removeReserved,
      pb.constraints.countP isReserved = 0 := by
    intro pb hpb
    obtain ⟨pb0, _, rfl⟩ := List.mem_map.mp hpb
    exact countP_reserved_filter pb0.constraints
  refine ⟨?_, ?_, ?_⟩
  · unfold toggle_follow_a2b remove_follow_constraints
    dsimp only
    rw [ha2b]
    simp only [Bool.not_false, if_true]
    rw [add_follow_a2b_spec _ _ _ hcleanB]
    have hA : armNames (armA.map removeReserved) = armNames armA :=
      armNames_map_preserve _ _ (fun pb => rfl)
    have hB : armNames (armB.map removeReserved) = armNames armB :=
      armNames_map_preserve _ _ (fun pb => rfl)
    simp [hA, hB]
  · intro pb hpb
    obtain ⟨pb0, _, rfl⟩ := List.mem_map.mp hpb
    exact countP_reserved_filter pb0.constraints
  · intro pb hpb c hc hres
    obtain ⟨pb1, hpb1, rfl⟩ := List.mem_map.mp hpb
    unfold withFollow at hc
    rcases List.mem_append.mp hc with hcl | hcf
    · exfalso
      obtain ⟨pb0, _, rfl⟩ := List.mem_map.mp hpb1
      have hz := List.countP_eq_zero.mp (countP_reserved_filter pb0.constraints) c hcl
      simp at hz
      rw [hres] at hz
      simp at hz
    · cases hls : lastSrcFor (armNames armA) (armNames armB) props.rows pb1.name with
      | none =>
        rw [hls] at hcf
        simp [followConsFor] at hcf
      | some s =>
        rw [hls] at hcf
        have hcs : c = mkFollowCon props.follow_mode 0 s := by
          simpa [followConsFor] using hcf
        refine ⟨?_, s, hcs⟩
        rw [hcs]
        cases props.follow_mode <;> rfl

/-- C6, witness: the amended theorem at a concrete scene — one row
`s1→t1`, Target→Source active (a stale reserved constraint sits on the
Source armature), a user constraint on the destination bone.  Enabling
Source→Target leaves flags (on, off), strips the stale constraint, and
installs exactly one Source→Target constraint after the user one. -/
theorem c6_follow_exclusivity_witness :
    toggle_follow_a2b ⟨[⟨"s1", "", "t1", "", "", false⟩], .rot, false, true⟩
      [⟨"s1", [⟨"AJ_FOLLOW_ROT", true, "x", 1, "COPY_ROTATION"⟩]⟩]
      [⟨"t1", [⟨"user", true, "u", 7, "OTHER"⟩]⟩] =
    (⟨[⟨"s1", "", "t1", "", "", false⟩], .rot, true, false⟩,
     [⟨"s1", []⟩],
     [⟨"t1", [⟨"user", true, "u", 7, "OTHER"⟩,
       ⟨"AJ_FOLLOW_ROT", true, "s1", 0, "COPY_ROTATION"⟩]⟩],
     1) := by
  have h := (c6_follow_exclusivity_amended
      ⟨[⟨"s1", "", "t1", "", "", false⟩], .rot, false, true⟩
      [⟨"s1", [⟨"AJ_FOLLOW_ROT", true, "x", 1, "COPY_ROTATION"⟩]⟩]
      [⟨"t1", [⟨"user", true, "u", 7, "OTHER"⟩]⟩] (by decide) (by decide)).1
  rw [h]
  decide

theorem isSuffixOf_append_tempSuffix (x : String) :
    tempSuffix.data.isSuffixOf (x ++ tempSuffix).data = true := by
  rw [List.isSuffixOf_iff_suffix]
  rw [String.data_append]
  exact List.suffix_append x.data tempSuffix.data

theorem append_tempSuffix_ne (x s : String)
    (hs : tempSuffix.data.isSuffixOf s.data = false) :
    x ++ tempSuffix ≠ s := by
  intro h
  rw [← h, isSuffixOf_append_tempSuffix] at hs
  simp at hs

theorem append_tempSuffix_inj (x y : String)
    (h : x ++ tempSuffix = y ++ tempSuffix) : x = y := by
  have hd : x.data ++ tempSuffix.data = y.data ++ tempSuffix.data := by
    have h2 := congrArg String.data h
    simpa [String.data_append] using h2
  have h3 : x.data = y.data := List.append_cancel_right hd
  exact congrArg String.mk h3

theorem dictGet_nil {β : Type} (x : String) :
    dictGet ([] : List (String × β)) x = none := rfl

theorem dictGet_cons_self {β : Type} (q : String × β) (t : List (String × β)) :
    dictGet (q :: t) q.1 = some q.2 := by
  simp [dictGet, List.find?]

theorem dictGet_cons_ne {β : Type} (q : String × β) (t : List (String × β))
    (x : String) (h : x ≠ q.1) : dictGet (q :: t) x = dictGet t x := by
  have hb : (q.1 == x) = false := by simp [Ne.symm h]
  simp [dictGet, List.find?, hb]

theorem dictGet_concat_ne {β : Type} (M : List (String × β)) (q : String × β)
    (x : String) (h : x ≠ q.1) : dictGet (M ++ [q]) x = dictGet M x := by
  rw [dictGet_append, dictGet_cons_ne q [] x h, dictGet_nil, Option.or_none]

theorem dictGet_concat_self {β : Type} (M : List (String × β))
    (q : String × β) (h : dictGet M q.1 = none) :
    dictGet (M ++ [q]) q.1 = some q.2 := by
  rw [dictGet_append, h, dictGet_cons_self]
  rfl

theorem dictGet_mem {β : Type} (m : List (String × β)) (k : String) (v : β)
    (h : dictGet m k = some v) : (k, v) ∈ m := by
  unfold dictGet at h
  cases hf : m.find? (fun q => q.1 == k) with
  | none => rw [hf] at h; simp at h
  | some q =>
    rw [hf] at h
    have hqm : q ∈ m := List.mem_of_find?_eq_some hf
    have hqk := List.find?_some hf
    have h1 : q.1 = k := by simpa using hqk
    have h2 : q.2 = v := by simpa using h
    have h3 : q = (k, v) := by
      cases q
      simp at h1 h2
      rw [h1, h2]
    rw [← h3]
    exact hqm

theorem dictGet_of_mem_nodup {β : Type} :
    ∀ (m : List (String × β)), (m.map Prod.fst).Nodup →
      ∀ (k : String) (v : β), (k, v) ∈ m → dictGet m k = some v := by
  intro m
  induction m with
  | nil => intro _ k v hm; simp at hm
  | cons q t ih =>
    intro hnd k v hm
    rcases List.mem_cons.mp hm with h | hmt
    · rw [← h]
      exact dictGet_cons_self (k, v) t
    · have hnd2 : (q.1 :: t.map Prod.fst).Nodup := by
        simpa only [List.map_cons] using hnd
      have hnd' := List.nodup_cons.mp hnd2
      have hk : k ≠ q.1 := by
        intro hc
        exact hnd'.1 (hc ▸ List.mem_map.mpr ⟨(k, v), hmt, rfl⟩)
      rw [dictGet_cons_ne q t k hk]
      exact ih hnd'.2 k v hmt

theorem renameFirst_not_found (eb : List EBone) (o n : String)
    (h : ∀ b ∈ eb, b.name ≠ o) : renameFirst eb o n = eb := by
  induction eb with
  | nil => rfl
  | cons b t ih =>
    simp only [renameFirst]
    rw [if_neg (h b (by simp)), ih (fun x hx => h x (by simp [hx]))]

theorem renameFirst_split (l₁ : List EBone) (b : EBone) (l₂ : List EBone)
    (o n : String) (hb : b.name = o) (h₁ : ∀ x ∈ l₁, x.name ≠ o) :
    renameFirst (l₁ ++ b :: l₂) o n = l₁ ++ { b with name := n } :: l₂ := by
  induction l₁ with
  | nil =>
    simp only [List.nil_append, renameFirst]
    rw [if_pos hb]
  | cons x t ih =>
    simp only [List.cons_append, renameFirst]
    rw [if_neg (h₁ x (by simp))]
    exact congrArg (List.cons x) (ih (fun y hy => h₁ y (by simp [hy])))

theorem setDeformFirst_split (l₁ : List EBone) (b : EBone) (l₂ : List EBone)
    (nm : String) (f : Bool) (hb : b.name = nm)
    (h₁ : ∀ x ∈ l₁, x.name ≠ nm) :
    setDeformFirst (l₁ ++ b :: l₂) nm f
      = l₁ ++ { b with use_deform := f } :: l₂ := by
  induction l₁ with
  | nil =>
    simp only [List.nil_append, setDeformFirst]
    rw [if_pos hb]
  | cons x t ih =>
    simp only [List.cons_append, setDeformFirst]
    rw [if_neg (h₁ x (by simp))]
    exact congrArg (List.cons x) (ih (fun y hy => h₁ y (by simp [hy])))

theorem ebKeys_split (arm : List EBone) (hnd : (ebKeys arm).Nodup)
    (o : String) (ho : o ∈ ebKeys arm) :
    ∃ a₁ b a₂, arm = a₁ ++ b :: a₂ ∧ b.name = o ∧
      (∀ x ∈ a₁, x.name ≠ o) ∧ (∀ x ∈ a₂, x.name ≠ o) := by
  induction arm with
  | nil => simp [ebKeys] at ho
  | cons b t ih =>
    have hnd2 : (b.name :: ebKeys t).Nodup := by
      simpa only [ebKeys, List.map_cons] using hnd
    have hnd' := List.nodup_cons.mp hnd2
    by_cases hb : b.name = o
    · refine ⟨[], b, t, by simp, hb, by simp, ?_⟩
      intro x hx hxo
      have hmem : o ∈ ebKeys t := List.mem_map.mpr ⟨x, hx, hxo⟩
      rw [← hb] at hmem
      exact hnd'.1 (by simpa [ebKeys] using hmem)
    · have hot : o ∈ ebKeys t := by
        rcases by simpa [ebKeys] using ho with h | h
        · exact absurd h.symm hb
        · simpa [ebKeys] using h
      obtain ⟨a₁, c, a₂, heq, hc, hpre, hpost⟩ := ih hnd'.2 hot
      exact ⟨b :: a₁, c, a₂, by rw [heq, List.cons_append], hc,
        fun x hx => by
          rcases List.mem_cons.mp hx with rfl | hxt
          · exact hb
          · exact hpre x hxt,
        hpost⟩

theorem foldl_dictInsert_fresh :
    ∀ (l m : List (String × String)),
      (l.map Prod.fst).Nodup →
      (∀ q ∈ l, ∀ r ∈ m, r.1 ≠ q.1) →
      l.foldl (fun acc q => dictInsert acc q.1 q.2) m = m ++ l := by
  intro l
  induction l with
  | nil => intro m _ _; simp
  | cons q t ih =>
    intro m hnd hfr
    have hnd2 : (q.1 :: t.map Prod.fst).Nodup := by
      simpa only [List.map_cons] using hnd
    have hnd' := List.nodup_cons.mp hnd2
    rw [List.foldl_cons]
    have hq : dictInsert m q.1 q.2 = m ++ [q] := by
      have h2 := dictInsert_fresh m q.1 q.2 (fun r hr => hfr q (by simp) r hr)
      simpa using h2
    have hfr' : ∀ p ∈ t, ∀ r ∈ m ++ [q], r.1 ≠ p.1 := by
      intro p hp r hr
      rcases List.mem_append.mp hr with hrm | hrq
      · exact hfr p (by simp [hp]) r hrm
      · have h3 : r = q := by simpa using hrq
        subst h3
        intro hc
        exact hnd'.1 (by rw [hc]; exact List.mem_map.mpr ⟨p, hp, rfl⟩)
    rw [hq, ih (m ++ [q]) hnd'.2 hfr', List.append_assoc, List.singleton_append]

theorem invertMapping_eq_swap (mapping : List (String × String))
    (h : (mapping.map Prod.snd).Nodup) :
    invertMapping mapping = mapping.map Prod.swap := by
  unfold invertMapping
  have h1 : mapping.foldl (fun m q => dictInsert m q.2 q.1) []
      = (mapping.map Prod.swap).foldl (fun m q => dictInsert m q.1 q.2) [] := by
    rw [List.foldl_map]
    rfl
  have hnd : ((mapping.map Prod.swap).map Prod.fst).Nodup := by
    rw [List.map_map]
    have h2 : (Prod.fst ∘ Prod.swap : String × String → String) = Prod.snd := by
      funext p; rfl
    rw [h2]
    exact h
  rw [h1, foldl_dictInsert_fresh (mapping.map Prod.swap) [] hnd (by simp)]
  simp

theorem nodup_concat_split {α : Type} (l : List α) (a : α)
    (h : (l ++ [a]).Nodup) : l.Nodup ∧ a ∉ l := by
  rw [List.nodup_append] at h
  refine ⟨h.1, fun hc => ?_⟩
  exact h.2.2 hc (by simp)

theorem phase1_spec (arm : List EBone)
    (hnd : (ebKeys arm).Nodup)
    (hns : ∀ s ∈ ebKeys arm, tempSuffix.data.isSuffixOf s.data = false) :
    ∀ M : List (String × String), (M.map Prod.fst).Nodup →
      (∀ q ∈ M, q.1 ∈ ebKeys arm) →
      M.foldl (fun eb q => renameFirst eb q.1 (q.2 ++ tempSuffix)) arm
        = arm.map (ph1Sub M) := by
  intro M
  induction M using List.reverseRecOn with
  | nil =>
    intro _ _
    rw [List.foldl_nil]
    exact (map_eq_self arm (ph1Sub []) (fun b _ => rfl)).symm
  | append_singleton M p ih =>
    intro hnd1 hmem
    have hsplit := nodup_concat_split (M.map Prod.fst) p.1
      (by simpa only [List.map_append, List.map_cons, List.map_nil] using hnd1)
    have hmemM : ∀ q ∈ M, q.1 ∈ ebKeys arm := fun q hq => hmem q (by simp [hq])
    rw [List.foldl_append, List.foldl_cons, List.foldl_nil, ih hsplit.1 hmemM]
    have hp1arm : p.1 ∈ ebKeys arm := hmem p (by simp)
    have hnosfx : tempSuffix.data.isSuffixOf p.1.data = false := hns p.1 hp1arm
    obtain ⟨a₁, b, a₂, heq, hbname, hpre, hpost⟩ :=
      ebKeys_split arm hnd p.1 hp1arm
    have hgetM : dictGet M p.1 = none :=
      dictGet_eq_none_of_not_mem M p.1 hsplit.2
    subst heq
    rw [List.map_append, List.map_cons]
    have hb1 : ph1Sub M b = b := by
      unfold ph1Sub
      rw [hbname, hgetM]
    rw [hb1]
    have hpre1 : ∀ x ∈ a₁.map (ph1Sub M), x.name ≠ p.1 := by
      intro x hx
      obtain ⟨y, hy, rfl⟩ := List.mem_map.mp hx
      cases hgy : dictGet M y.name with
      | none =>
        simp only [ph1Sub, hgy]
        exact hpre y hy
      | some n0 =>
        simp only [ph1Sub, hgy]
        exact append_tempSuffix_ne n0 p.1 hnosfx
    rw [renameFirst_split (a₁.map (ph1Sub M)) b (a₂.map (ph1Sub M)) p.1
      (p.2 ++ tempSuffix) hbname hpre1]
    have hmapeq : ∀ l : List EBone, (∀ x ∈ l, x.name ≠ p.1) →
        l.map (ph1Sub (M ++ [p])) = l.map (ph1Sub M) := by
      intro l hl
      apply List.map_congr_left
      intro y hy
      have h5 : dictGet (M ++ [p]) y.name = dictGet M y.name :=
        dictGet_concat_ne M p y.name (hl y hy)
      unfold ph1Sub
      rw [h5]
    have hbp : ph1Sub (M ++ [p]) b = { b with name := p.2 ++ tempSuffix } := by
      have h6 : dictGet (M ++ [p]) b.name = some p.2 := by
        rw [hbname]
        exact dictGet_concat_self M p hgetM
      simp only [ph1Sub, h6]
    rw [List.map_append, List.map_cons, hmapeq a₁ hpre, hmapeq a₂ hpost, hbp]

theorem ph1Sub_cons_ne (p : String × String) (rest : List (String × String))
    (y : EBone) (h : y.name ≠ p.1) :
    ph1Sub (p :: rest) y = ph1Sub rest y := by
  unfold ph1Sub
  rw [dictGet_cons_ne p rest y.name h]

theorem phase2_spec (arm : List EBone)
    (hnd : (ebKeys arm).Nodup)
    (hns : ∀ s ∈ ebKeys arm, tempSuffix.data.isSuffixOf s.data = false) :
    ∀ (M rest : List (String × String)),
      ((M ++ rest).map Prod.fst).Nodup →
      ((M ++ rest).map Prod.snd).Nodup →
      (∀ q ∈ M ++ rest, q.1 ∈ ebKeys arm ∧
        tempSuffix.data.isSuffixOf q.2.data = false) →
      M.foldl (fun (st : List EBone × Nat) q =>
          if q.2 ++ tempSuffix ∈ ebKeys st.1 then
            (renameFirst st.1 (q.2 ++ tempSuffix) q.2, st.2 + 1)
          else st)
        (arm.map (ph1Sub (M ++ rest)), 0)
        = (arm.map (ph2Sub M rest), M.length) := by
  intro M
  induction M using List.reverseRecOn with
  | nil =>
    intro rest _ _ _
    rw [List.foldl_nil, List.nil_append]
    have hmap : arm.map (ph1Sub rest) = arm.map (ph2Sub [] rest) := by
      apply List.map_congr_left
      intro y _
      simp only [ph2Sub, dictGet_nil]
    rw [hmap]
    rfl
  | append_singleton M p ih =>
    intro rest hnd1 hnd2 hprops
    have hassoc : M ++ [p] ++ rest = M ++ (p :: rest) := by
      rw [List.append_assoc, List.singleton_append]
    rw [hassoc] at hnd1 hnd2 hprops
    rw [List.foldl_append, List.foldl_cons, List.foldl_nil, hassoc,
      ih (p :: rest) hnd1 hnd2 hprops]
    have hpmem : p ∈ M ++ (p :: rest) := by simp
    have hp1arm : p.1 ∈ ebKeys arm := (hprops p hpmem).1
    have hfst : (M.map Prod.fst ++ p.1 :: rest.map Prod.fst).Nodup := by
      simpa only [List.map_append, List.map_cons] using hnd1
    have hsnd : (M.map Prod.snd ++ p.2 :: rest.map Prod.snd).Nodup := by
      simpa only [List.map_append, List.map_cons] using hnd2
    have hfst2 := List.nodup_cons.mp (List.nodup_middle.mp hfst)
    have hsnd2 := List.nodup_cons.mp (List.nodup_middle.mp hsnd)
    have hp1M : p.1 ∉ M.map Prod.fst :=
      fun hc => hfst2.1 (List.mem_append.mpr (Or.inl hc))
    have hgetM : dictGet M p.1 = none :=
      dictGet_eq_none_of_not_mem M p.1 hp1M
    have hp2rest : p.2 ∉ rest.map Prod.snd :=
      fun hc => hsnd2.1 (List.mem_append.mpr (Or.inr hc))
    have hvalns : ∀ q ∈ M ++ (p :: rest),
        tempSuffix.data.isSuffixOf q.2.data = false :=
      fun q hq => (hprops q hq).2
    obtain ⟨a₁, b, a₂, heq, hbname, hpre, hpost⟩ :=
      ebKeys_split arm hnd p.1 hp1arm
    subst heq
    have hgb : ph2Sub M (p :: rest) b = { b with name := p.2 ++ tempSuffix } := by
      simp only [ph2Sub, hbname, hgetM, ph1Sub, dictGet_cons_self p rest]
    have hMne : ∀ y : EBone, y ∈ a₁ ++ b :: a₂ → y.name ≠ p.1 →
        (ph2Sub M (p :: rest) y).name ≠ p.2 ++ tempSuffix := by
      intro y hy hyne
      cases hgy : dictGet M y.name with
      | some n0 =>
        simp only [ph2Sub, hgy]
        have hn0 : (y.name, n0) ∈ M := dictGet_mem M y.name n0 hgy
        have hn0ns : tempSuffix.data.isSuffixOf n0.data = false :=
          hvalns (y.name, n0) (List.mem_append.mpr (Or.inl hn0))
        exact fun hc => append_tempSuffix_ne p.2 n0 hn0ns hc.symm
      | none =>
        simp only [ph2Sub, hgy, ph1Sub_cons_ne p rest y hyne]
        cases hgy2 : dictGet rest y.name with
        | some n1 =>
          simp only [ph1Sub, hgy2]
          have hn1 : (y.name, n1) ∈ rest := dictGet_mem rest y.name n1 hgy2
          have hn1m : n1 ∈ rest.map Prod.snd :=
            List.mem_map.mpr ⟨(y.name, n1), hn1, rfl⟩
          intro hc
          have h10 : n1 = p.2 := append_tempSuffix_inj n1 p.2 hc
          exact hp2rest (h10 ▸ hn1m)
        | none =>
          simp only [ph1Sub, hgy2]
          have hyk : y.name ∈ ebKeys (a₁ ++ b :: a₂) :=
            List.mem_map.mpr ⟨y, hy, rfl⟩
          exact fun hc =>
            append_tempSuffix_ne p.2 y.name (hns y.name hyk) hc.symm
    have hpre1 : ∀ x ∈ a₁.map (ph2Sub M (p :: rest)),
        x.name ≠ p.2 ++ tempSuffix := by
      intro x hx
      obtain ⟨y, hy, rfl⟩ := List.mem_map.mp hx
      exact hMne y (by simp [hy]) (hpre y hy)
    dsimp only
    rw [List.map_append, List.map_cons, hgb]
    have hguard : p.2 ++ tempSuffix ∈ ebKeys
        (a₁.map (ph2Sub M (p :: rest)) ++
          { b with name := p.2 ++ tempSuffix } ::
            a₂.map (ph2Sub M (p :: rest))) := by
      simp [ebKeys]
    rw [if_pos hguard]
    rw [renameFirst_split (a₁.map (ph2Sub M (p :: rest)))
      { b with name := p.2 ++ tempSuffix } (a₂.map (ph2Sub M (p :: rest)))
      (p.2 ++ tempSuffix) p.2 rfl hpre1]
    have hg2b : ph2Sub (M ++ [p]) rest b = { b with name := p.2 } := by
      have h8 : dictGet (M ++ [p]) b.name = some p.2 := by
        rw [hbname]
        exact dictGet_concat_self M p hgetM
      simp only [ph2Sub, h8]
    have hmapeq : ∀ l : List EBone, (∀ x ∈ l, x.name ≠ p.1) →
        l.map (ph2Sub (M ++ [p]) rest) = l.map (ph2Sub M (p :: rest)) := by
      intro l hl
      apply List.map_congr_left
      intro y hy
      have h9 : dictGet (M ++ [p]) y.name = dictGet M y.name :=
        dictGet_concat_ne M p y.name (hl y hy)
      cases hgy : dictGet M y.name with
      | some n0 => simp only [ph2Sub, h9, hgy]
      | none =>
        simp only [ph2Sub, h9, hgy]
        exact (ph1Sub_cons_ne p rest y (hl y hy)).symm
    rw [List.map_append, List.map_cons, hmapeq a₁ hpre, hmapeq a₂ hpost, hg2b]
    simp [List.length_append]

theorem phase3_spec (arm2 : List EBone) (fl : List (String × Bool)) :
    ∀ (M : List (String × String)) (c : Nat),
      (∀ q ∈ M, q.2 ∈ ebKeys arm2 ∧
        ∃ f, flagLookup fl q.1 = some f ∧ setDeformFirst arm2 q.2 f = arm2) →
      M.foldl (fun (st : List EBone × Nat) q =>
          if q.2 ∈ ebKeys st.1 ∧ (flagLookup fl q.1).isSome then
            (setDeformFirst st.1 q.2 ((flagLookup fl q.1).getD false), st.2 + 1)
          else st) (arm2, c)
        = (arm2, c + M.length) := by
  intro M
  induction M with
  | nil => intro c _; simp
  | cons q t ih =>
    intro c hq
    obtain ⟨hin, f, hf, hset⟩ := hq q (by simp)
    rw [List.foldl_cons]
    dsimp only
    have hcond : q.2 ∈ ebKeys arm2 ∧ (flagLookup fl q.1).isSome := by
      refine ⟨hin, ?_⟩
      rw [hf]
      rfl
    have hgd : (flagLookup fl q.1).getD false = f := by
      rw [hf]
      rfl
    rw [if_pos hcond, hgd, hset, ih (c + 1) (fun r hr => hq r (by simp [hr]))]
    have hlen : c + 1 + t.length = c + (q :: t).length := by
      simp [List.length_cons]
      omega
    rw [hlen]

theorem nodup_snd_entry_eq {β : Type} (m : List (String × β))
    (h : (m.map Prod.snd).Nodup) (q r : String × β) (hq : q ∈ m) (hr : r ∈ m)
    (hs : q.2 = r.2) : q = r :=
  List.inj_on_of_nodup_map h hq hr hs

theorem phase3_premises (arm : List EBone) (mapping : List (String × String))
    (hok : FreshRenameOK arm mapping) :
    ∀ q ∈ mapping, q.2 ∈ ebKeys (arm.map (renameSub mapping)) ∧
      ∃ f, flagLookup (arm.map (fun b => (b.name, b.use_deform))) q.1 = some f ∧
        setDeformFirst (arm.map (renameSub mapping)) q.2 f
          = arm.map (renameSub mapping) := by
  obtain ⟨hnd, hprops, hkeys, hvals, hq⟩ := hok
  intro q hqm
  obtain ⟨hq1arm, hq2ne, hq12, hq2arm, hq2ns⟩ := hq q hqm
  have hget : dictGet mapping q.1 = some q.2 :=
    dictGet_of_mem_nodup mapping hkeys q.1 q.2 hqm
  obtain ⟨a₁, b, a₂, heq, hbname, hpre, hpost⟩ :=
    ebKeys_split arm hnd q.1 hq1arm
  have hgb : renameSub mapping b = { b with name := q.2 } := by
    simp only [renameSub, hbname, hget]
  subst heq
  refine ⟨?_, b.use_deform, ?_, ?_⟩
  · rw [List.map_append, List.map_cons, hgb]
    simp [ebKeys]
  · have hfl : flagLookup
        ((a₁ ++ b :: a₂).map (fun x => (x.name, x.use_deform))) q.1
        = dictGet ((a₁ ++ b :: a₂).map (fun x => (x.name, x.use_deform))) q.1 :=
      rfl
    rw [hfl]
    apply dictGet_of_mem_nodup
    · have h2 : (((a₁ ++ b :: a₂).map
          (fun x => (x.name, x.use_deform))).map Prod.fst)
          = ebKeys (a₁ ++ b :: a₂) := by
        rw [List.map_map]
        rfl
      rw [h2]
      exact hnd
    · rw [← hbname]
      exact List.mem_map.mpr ⟨b, by simp, rfl⟩
  · rw [List.map_append, List.map_cons, hgb]
    have hpre2 : ∀ x ∈ a₁.map (renameSub mapping), x.name ≠ q.2 := by
      intro x hx
      obtain ⟨y, hy, rfl⟩ := List.mem_map.mp hx
      cases hgy : dictGet mapping y.name with
      | some n0 =>
        simp only [renameSub, hgy]
        intro hc
        have hyM : (y.name, n0) ∈ mapping := dictGet_mem mapping y.name n0 hgy
        have hent : (y.name, n0) = q :=
          nodup_snd_entry_eq mapping hvals (y.name, n0) q hyM hqm hc
        exact hpre y hy (congrArg Prod.fst hent)
      | none =>
        simp only [renameSub, hgy]
        intro hc
        have hmem2 : y.name ∈ ebKeys (a₁ ++ b :: a₂) :=
          List.mem_map.mpr ⟨y, by simp [hy], rfl⟩
        exact hq2arm (hc ▸ hmem2)
    rw [setDeformFirst_split (a₁.map (renameSub mapping))
      { b with name := q.2 } (a₂.map (renameSub mapping)) q.2 b.use_deform
      rfl hpre2]

theorem rename_fresh_spec (arm : List EBone) (mapping : List (String × String))
    (hok : FreshRenameOK arm mapping) :
    rename_bones_edit_mode_preserve_flags arm mapping
      = (arm.map (renameSub mapping), mapping.length, mapping.length) := by
  have hnd := hok.1
  have hkeys := hok.2.2.1
  have hvals := hok.2.2.2.1
  have hq := hok.2.2.2.2
  by_cases hm : mapping = []
  · subst hm
    unfold rename_bones_edit_mode_preserve_flags
    rw [if_pos rfl, map_eq_self arm (renameSub []) (fun b _ => rfl)]
    rfl
  · unfold rename_bones_edit_mode_preserve_flags
    rw [if_neg hm]
    dsimp only
    have hpairs : mapping.filter
        (fun p => decide (p.1 ∈ ebKeys arm) && !(p.2 == "") && !(p.1 == p.2))
        = mapping := by
      apply List.filter_eq_self.mpr
      intro r hrm
      obtain ⟨h1, h2, h3, _, _⟩ := hq r hrm
      simp [h1, h2, h3]
    rw [hpairs]
    have hns : ∀ s ∈ ebKeys arm, tempSuffix.data.isSuffixOf s.data = false :=
      fun s hs => (hok.2.1 s hs).2
    have hmem1 : ∀ r ∈ mapping, r.1 ∈ ebKeys arm := fun r hr => (hq r hr).1
    rw [phase1_spec arm hnd hns mapping hkeys hmem1]
    have hprops2 : ∀ r ∈ mapping, r.1 ∈ ebKeys arm ∧
        tempSuffix.data.isSuffixOf r.2.data = false :=
      fun r hr => ⟨(hq r hr).1, (hq r hr).2.2.2.2⟩
    have hph2 := phase2_spec arm hnd hns mapping [] (by simpa using hkeys)
      (by simpa using hvals) (by simpa using hprops2)
    rw [List.append_nil] at hph2
    rw [hph2]
    dsimp only
    have hsubeq : arm.map (ph2Sub mapping []) = arm.map (renameSub mapping) := by
      apply List.map_congr_left
      intro y _
      cases hgy : dictGet mapping y.name with
      | some n0 => simp only [ph2Sub, renameSub, hgy]
      | none => simp only [ph2Sub, renameSub, hgy, ph1Sub, dictGet_nil]
    rw [hsubeq]
    rw [phase3_spec (arm.map (renameSub mapping))
      (arm.map (fun b => (b.name, b.use_deform))) mapping 0
      (phase3_premises arm mapping hok)]
    simp

theorem renameSub_name (M : List (String × String)) (b : EBone) :
    (renameSub M b).name = subName M b.name := by
  cases hgy : dictGet M b.name with
  | some n0 => simp only [renameSub, subName, hgy]
  | none => simp only [renameSub, subName, hgy]

theorem ebKeys_map_renameSub (M : List (String × String)) (arm : List EBone) :
    ebKeys (arm.map (renameSub M)) = (ebKeys arm).map (subName M) := by
  unfold ebKeys
  rw [List.map_map, List.map_map]
  apply List.map_congr_left
  intro b _
  exact renameSub_name M b

theorem subName_inj_on (arm : List EBone) (M : List (String × String))
    (hok : FreshRenameOK arm M) :
    ∀ s ∈ ebKeys arm, ∀ t ∈ ebKeys arm, subName M s = subName M t → s = t := by
  obtain ⟨hnd, hprops, hkeys, hvals, hq⟩ := hok
  intro s hs t ht hst
  cases hgs : dictGet M s with
  | some ns =>
    cases hgt : dictGet M t with
    | some nt =>
      have hsM : (s, ns) ∈ M := dictGet_mem M s ns hgs
      have htM : (t, nt) ∈ M := dictGet_mem M t nt hgt
      have hval : ns = nt := by
        have h1 : subName M s = ns := by simp only [subName, hgs]
        have h2 : subName M t = nt := by simp only [subName, hgt]
        rw [h1, h2] at hst
        exact hst
      have hent : (s, ns) = (t, nt) :=
        nodup_snd_entry_eq M hvals (s, ns) (t, nt) hsM htM hval
      exact congrArg Prod.fst hent
    | none =>
      have h1 : subName M s = ns := by simp only [subName, hgs]
      have h2 : subName M t = t := by simp only [subName, hgt]
      rw [h1, h2] at hst
      have hsM : (s, ns) ∈ M := dictGet_mem M s ns hgs
      have hnv : ns ∉ ebKeys arm := (hq (s, ns) hsM).2.2.2.1
      have hin : ns ∈ ebKeys arm := by rw [hst]; exact ht
      exact absurd hin hnv
  | none =>
    cases hgt : dictGet M t with
    | some nt =>
      have h1 : subName M s = s := by simp only [subName, hgs]
      have h2 : subName M t = nt := by simp only [subName, hgt]
      rw [h1, h2] at hst
      have htM : (t, nt) ∈ M := dictGet_mem M t nt hgt
      have hnv : nt ∉ ebKeys arm := (hq (t, nt) htM).2.2.2.1
      have hin : nt ∈ ebKeys arm := by rw [← hst]; exact hs
      exact absurd hin hnv
    | none =>
      have h1 : subName M s = s := by simp only [subName, hgs]
      have h2 : subName M t = t := by simp only [subName, hgt]
      rw [h1, h2] at hst
      exact hst

theorem freshRenameOK_inv (arm : List EBone) (mapping : List (String × String))
    (hok : FreshRenameOK arm mapping) :
    FreshRenameOK (arm.map (renameSub mapping)) (mapping.map Prod.swap) := by
  obtain ⟨hnd, hprops, hkeys, hvals, hq⟩ := hok
  have hkeys2 : ebKeys (arm.map (renameSub mapping))
      = (ebKeys arm).map (subName mapping) := ebKeys_map_renameSub mapping arm
  refine ⟨?_, ?_, ?_, ?_, ?_⟩
  · rw [hkeys2]
    exact List.Nodup.map_on
      (subName_inj_on arm mapping ⟨hnd, hprops, hkeys, hvals, hq⟩) hnd
  · rw [hkeys2]
    intro s hs
    obtain ⟨s0, hs0, rfl⟩ := List.mem_map.mp hs
    cases hgs : dictGet mapping s0 with
    | some n0 =>
      have hsM : (s0, n0) ∈ mapping := dictGet_mem mapping s0 n0 hgs
      simp only [subName, hgs]
      exact ⟨(hq (s0, n0) hsM).2.1, (hq (s0, n0) hsM).2.2.2.2⟩
    | none =>
      simp only [subName, hgs]
      exact hprops s0 hs0
  · rw [List.map_map]
    have hco : (Prod.fst ∘ Prod.swap : String × String → String) = Prod.snd := by
      funext r
      rfl
    rw [hco]
    exact hvals
  · rw [List.map_map]
    have hco : (Prod.snd ∘ Prod.swap : String × String → String) = Prod.fst := by
      funext r
      rfl
    rw [hco]
    exact hkeys
  · intro r hr
    obtain ⟨e, he, rfl⟩ := List.mem_map.mp hr
    obtain ⟨he1, he2, he12, he2arm, he2ns⟩ := hq e he
    have hge : dictGet mapping e.1 = some e.2 :=
      dictGet_of_mem_nodup mapping hkeys e.1 e.2 he
    refine ⟨?_, ?_, ?_, ?_, ?_⟩
    · rw [hkeys2]
      have hsub : subName mapping e.1 = e.2 := by simp only [subName, hge]
      exact List.mem_map.mpr ⟨e.1, he1, hsub⟩
    · exact (hprops e.1 he1).1
    · exact he12.symm
    · rw [hkeys2]
      intro hc
      obtain ⟨t0, ht0, hts⟩ := List.mem_map.mp hc
      cases hgt : dictGet mapping t0 with
      | some n0 =>
        have h1 : subName mapping t0 = n0 := by simp only [subName, hgt]
        rw [h1] at hts
        have hn0M : (t0, n0) ∈ mapping := dictGet_mem mapping t0 n0 hgt
        have hnv : n0 ∉ ebKeys arm := (hq (t0, n0) hn0M).2.2.2.1
        rw [hts] at hnv
        exact hnv he1
      | none =>
        have h1 : subName mapping t0 = t0 := by simp only [subName, hgt]
        rw [h1] at hts
        have hts2 : t0 = e.1 := hts
        rw [hts2, hge] at hgt
        exact Option.noConfusion hgt
    · exact (hprops e.1 he1).2

theorem renameSub_swap_inverse (arm : List EBone)
    (mapping : List (String × String)) (hok : FreshRenameOK arm mapping) :
    (arm.map (renameSub mapping)).map (renameSub (mapping.map Prod.swap))
      = arm := by
  obtain ⟨hnd, hprops, hkeys, hvals, hq⟩ := hok
  rw [List.map_map]
  apply map_eq_self
  intro b hb
  show renameSub (mapping.map Prod.swap) (renameSub mapping b) = b
  cases hgb : dictGet mapping b.name with
  | some n =>
    have hbM : (b.name, n) ∈ mapping := dictGet_mem mapping b.name n hgb
    have hswap : (n, b.name) ∈ mapping.map Prod.swap :=
      List.mem_map.mpr ⟨(b.name, n), hbM, rfl⟩
    have hswapnd : ((mapping.map Prod.swap).map Prod.fst).Nodup := by
      rw [List.map_map]
      have hco : (Prod.fst ∘ Prod.swap : String × String → String)
          = Prod.snd := by
        funext r
        rfl
      rw [hco]
      exact hvals
    have hget2 : dictGet (mapping.map Prod.swap) n = some b.name :=
      dictGet_of_mem_nodup (mapping.map Prod.swap) hswapnd n b.name hswap
    simp only [renameSub, hgb, hget2]
  | none =>
    have hnv : b.name ∉ (mapping.map Prod.swap).map Prod.fst := by
      intro hc
      rw [List.map_map] at hc
      obtain ⟨e, he, hee⟩ := List.mem_map.mp hc
      have hee2 : e.2 = b.name := hee
      have hev : e.2 ∉ ebKeys arm := (hq e he).2.2.2.1
      rw [hee2] at hev
      exact hev (List.mem_map.mpr ⟨b, hb, rfl⟩)
    have hget2 : dictGet (mapping.map Prod.swap) b.name = none :=
      dictGet_eq_none_of_not_mem _ b.name hnv
    simp only [renameSub, hgb, hget2]

theorem revert_some_ne {W : Type} (m : List (String × String)) (hm : m ≠ [])
    (X : ExpScene W) : revert_temp_mapping (some m) X = applyPipeline m X := by
  unfold revert_temp_mapping
  dsimp only
  rw [if_neg hm]

theorem export_fail_eq {W : Type} (p : ExpProps) (R : W → W) (sc : ExpScene W) :
    export_current_action_execute p R true sc
      = (OpResult.cancelled,
         revert_temp_mapping (apply_temp_mapping_if_needed p sc).1
           { (apply_temp_mapping_if_needed p sc).2 with
             helperCons :=
               if p.export_format = ExpFormat.bvh then
                 (apply_temp_mapping_if_needed p sc).2.helperCons + 1
               else (apply_temp_mapping_if_needed p sc).2.helperCons }) := by
  unfold export_current_action_execute
  dsimp only
  cases harr : (apply_temp_mapping_if_needed p sc).2.actionRange with
  | none =>
    cases hfmt : p.export_format with
    | fbx => cases him : p.include_mesh <;> simp [harr]
    | bvh => simp [harr]
  | some r =>
    cases hfmt : p.export_format with
    | fbx => cases him : p.include_mesh <;> simp [harr]
    | bvh => simp [harr]

/-- C4: when the exporter call inside the single-file export command
raises, the command returns `CANCELLED` and, before returning, reverts
all temporary state it installed: the temporary rename is undone via the
inverse mapping (the bone list is back to its initial value), the world
matrices of the rotated objects are restored, and the scene frame range
is restored — and this holds on the FBX path and the BVH path alike
(the statement quantifies over `export_format`).  The hypothesis is the
freshness regime of the computed export mapping (distinct originals and
targets, targets absent from the armature, no reserved temp suffix in
sight), in which Blender performs the temporary rename without
collision-renaming, so the two-phase rename is an exact substitution
and the inverse mapping undoes it. -/
theorem c4_export_failure_reverts {W : Type} (p : ExpProps) (R : W → W)
    (sc : ExpScene W)
    (hok : FreshRenameOK sc.bones (exportMappingFor p.bone_map sc.bones)) :
    (export_current_action_execute p R true sc).1 = OpResult.cancelled ∧
    (export_current_action_execute p R true sc).2.bones = sc.bones ∧
    (export_current_action_execute p R true sc).2.armMat = sc.armMat ∧
    (export_current_action_execute p R true sc).2.meshMats = sc.meshMats ∧
    (export_current_action_execute p R true sc).2.frame_start
      = sc.frame_start ∧
    (export_current_action_execute p R true sc).2.frame_end
      = sc.frame_end := by
  rw [export_fail_eq p R sc]
  by_cases hro : (!p.rename_on_export) = true
  · have happ : apply_temp_mapping_if_needed p sc = (none, sc) := by
      unfold apply_temp_mapping_if_needed
      rw [if_pos hro]
    rw [happ]
    exact ⟨rfl, rfl, rfl, rfl, rfl, rfl⟩
  · by_cases hmm : exportMappingFor p.bone_map sc.bones = []
    · have happ : apply_temp_mapping_if_needed p sc = (none, sc) := by
        unfold apply_temp_mapping_if_needed
        rw [if_neg hro]
        dsimp only
        rw [if_pos hmm]
      rw [happ]
      exact ⟨rfl, rfl, rfl, rfl, rfl, rfl⟩
    · have happ : apply_temp_mapping_if_needed p sc
          = (some (invertMapping (exportMappingFor p.bone_map sc.bones)),
             applyPipeline (exportMappingFor p.bone_map sc.bones) sc) := by
        unfold apply_temp_mapping_if_needed
        rw [if_neg hro]
        dsimp only
        rw [if_neg hmm]
      rw [happ]
      have hswap : invertMapping (exportMappingFor p.bone_map sc.bones)
          = (exportMappingFor p.bone_map sc.bones).map Prod.swap :=
        invertMapping_eq_swap _ hok.2.2.2.1
      rw [hswap]
      have hnil : (exportMappingFor p.bone_map sc.bones).map Prod.swap
          ≠ [] := by
        intro hc
        exact hmm (List.map_eq_nil_iff.mp hc)
      rw [revert_some_ne ((exportMappingFor p.bone_map sc.bones).map Prod.swap)
        hnil]
      refine ⟨rfl, ?_, rfl, rfl, rfl, rfl⟩
      show (rename_bones_edit_mode_preserve_flags
        (rename_bones_edit_mode_preserve_flags sc.bones
          (exportMappingFor p.bone_map sc.bones)).1
        ((exportMappingFor p.bone_map sc.bones).map Prod.swap)).1 = sc.bones
      have hb1 : (rename_bones_edit_mode_preserve_flags sc.bones
          (exportMappingFor p.bone_map sc.bones)).1
          = sc.bones.map (renameSub (exportMappingFor p.bone_map sc.bones)) := by
        rw [rename_fresh_spec sc.bones _ hok]
      have hok2 := freshRenameOK_inv sc.bones _ hok
      rw [hb1, rename_fresh_spec _ _ hok2]
      exact renameSub_swap_inverse sc.bones _ hok

/-- Witness for C4: a concrete two-bone armature with one bone-map row
(`Hips -> Pelvis`), FBX format with meshes, concrete frame range and
`Nat`-coded world matrices; the exporter raises.  The freshness
hypothesis is discharged by computation. -/
theorem c4_export_failure_reverts_witness :
    FreshRenameOK [⟨"Hips", true⟩, ⟨"Chest", false⟩]
      (exportMappingFor [⟨"Hips", "", "Pelvis", "", "", false⟩]
        [⟨"Hips", true⟩, ⟨"Chest", false⟩]) ∧
    ((export_current_action_execute
        ⟨ExpFormat.fbx, true, true, [⟨"Hips", "", "Pelvis", "", "", false⟩]⟩
        Nat.succ true
        ⟨[⟨"Hips", true⟩, ⟨"Chest", false⟩], [⟨true, ["Hips"]⟩], [], [], [],
          some (3, 7), 1, 250, 0, [5], 0⟩).1 = OpResult.cancelled ∧
      (export_current_action_execute
        ⟨ExpFormat.fbx, true, true, [⟨"Hips", "", "Pelvis", "", "", false⟩]⟩
        Nat.succ true
        ⟨[⟨"Hips", true⟩, ⟨"Chest", false⟩], [⟨true, ["Hips"]⟩], [], [], [],
          some (3, 7), 1, 250, 0, [5], 0⟩).2.bones
        = [⟨"Hips", true⟩, ⟨"Chest", false⟩] ∧
      (export_current_action_execute
        ⟨ExpFormat.fbx, true, true, [⟨"Hips", "", "Pelvis", "", "", false⟩]⟩
        Nat.succ true
        ⟨[⟨"Hips", true⟩, ⟨"Chest", false⟩], [⟨true, ["Hips"]⟩], [], [], [],
          some (3, 7), 1, 250, 0, [5], 0⟩).2.armMat = 0 ∧
      (export_current_action_execute
        ⟨ExpFormat.fbx, true, true, [⟨"Hips", "", "Pelvis", "", "", false⟩]⟩
        Nat.succ true
        ⟨[⟨"Hips", true⟩, ⟨"Chest", false⟩], [⟨true, ["Hips"]⟩], [], [], [],
          some (3, 7), 1, 250, 0, [5], 0⟩).2.meshMats = [5] ∧
      (export_current_action_execute
        ⟨ExpFormat.fbx, true, true, [⟨"Hips", "", "Pelvis", "", "", false⟩]⟩
        Nat.succ true
        ⟨[⟨"Hips", true⟩, ⟨"Chest", false⟩], [⟨true, ["Hips"]⟩], [], [], [],
          some (3, 7), 1, 250, 0, [5], 0⟩).2.frame_start = 1 ∧
      (export_current_action_execute
        ⟨ExpFormat.fbx, true, true, [⟨"Hips", "", "Pelvis", "", "", false⟩]⟩
        Nat.succ true
        ⟨[⟨"Hips", true⟩, ⟨"Chest", false⟩], [⟨true, ["Hips"]⟩], [], [], [],
          some (3, 7), 1, 250, 0, [5], 0⟩).2.frame_end = 250) :=
  ⟨by unfold FreshRenameOK; decide,
   c4_export_failure_reverts
     ⟨ExpFormat.fbx, true, true, [⟨"Hips", "", "Pelvis", "", "", false⟩]⟩
     Nat.succ
     ⟨[⟨"Hips", true⟩, ⟨"Chest", false⟩], [⟨true, ["Hips"]⟩], [], [], [],
       some (3, 7), 1, 250, 0, [5], 0⟩
     (by unfold FreshRenameOK; decide)⟩

end AJ
